import Mathlib

/-! CompressedTrie

A shallow embedding of `src/CompressedTrie.hpp`.

* `Edge` is `std::string`, a sequence of bytes (numbers; `std::map` orders
  labels byte-wise, `strLess`).
* `Node V` is `Node<Value>`: the `std::map<Edge, SPtr> edges` of owned children
  (`Edges V`, an association list in iteration order), the flag `endpoint` and
  the payload `x`.  A child node has exactly one owning `shared_ptr`, the
  entry of its parent's map, so the nodes owned by a root form a tree.
* A pointer to a node of a tree (`WPtr`, `SPtr`) is the list of the edge labels
  from the root down to that node (`NodePtr`).  The back-reference `parent`
  is therefore the pointer without its last label, and `is_root()` holds of
  the empty list.  A `weak_ptr` that may have expired is an `Option NodePtr`.
* `int` indices are natural numbers: the embedding is of strings of fewer
  than 2^31 bytes, on which the conversion of a size to `int` (`int_of_size`)
  changes nothing.
-/

namespace CompressedTrie

/-- The type `Edge` of the source: a `std::string`, as its list of bytes. -/
abbrev Edge := List Nat

mutual
/-- The class `Node<Value>`: `edges`, `endpoint`, `x`. -/
inductive Node (V : Type) : Type where
  | mk (edges : Edges V) (endpoint : Bool) (x : V) : Node V
/-- The member `std::map<Edge, SPtr> edges`, listed in iteration order. -/
inductive Edges (V : Type) : Type where
  | nil : Edges V
  | cons (edge : Edge) (child : Node V) (rest : Edges V) : Edges V
end

/-- A pointer to a node: the edge labels on the way from the root to it. -/
abbrev NodePtr := List Edge

variable {V : Type}

/-- The comparison `std::less<std::string>` that orders the map: byte-wise
lexicographic, a proper prefix first. -/
def strLess : Edge → Edge → Bool
  | [], [] => false
  | [], _ :: _ => true
  | _ :: _, [] => false
  | a :: s, b :: t => if a < b then true else if b < a then false else strLess s t

namespace Edges

/-- The call `edges.find(edge)` followed by `it->second`. -/
def find : Edges V → Edge → Option (Node V)
  | .nil, _ => none
  | .cons e c rest, edge => if e = edge then some c else find rest edge

/-- The assignment `edges[edge] = child`: overwrite the entry of `edge`, or put
a new entry at its place in the order. -/
def assign : Edges V → Edge → Node V → Edges V
  | .nil, edge, child => .cons edge child .nil
  | .cons e c rest, edge, child =>
    if e = edge then .cons e child rest
    else if strLess edge e then .cons edge child (.cons e c rest)
    else .cons e c (assign rest edge child)

/-- The call `edges.erase(edge)`: no entry has the key `edge` afterwards. -/
def erase : Edges V → Edge → Edges V
  | .nil, _ => .nil
  | .cons e c rest, edge =>
    if e = edge then erase rest edge else .cons e c (erase rest edge)

/-- The calls `std::find_if(edges.begin(), edges.end(), is_target)` and
`edges.erase(it)` of `remove(const SPtr& child)`, for the child that `edge`
leads to: the first entry with that label goes. -/
def erase_child : Edges V → Edge → Edges V
  | .nil, _ => .nil
  | .cons e c rest, edge => if e = edge then rest else .cons e c (erase_child rest edge)

/-- The map after a write to the child that `edge` leads to, which `child` is
the state of afterwards. -/
def replace : Edges V → Edge → Node V → Edges V
  | .nil, _, _ => .nil
  | .cons e c rest, edge, child =>
    if e = edge then .cons e child rest else .cons e c (replace rest edge child)

/-- The call `edges.empty()`. -/
def empty : Edges V → Bool
  | .nil => true
  | .cons _ _ _ => false

end Edges

namespace Node

/-- The accessor `get_edges()`. -/
def get_edges : Node V → Edges V
  | .mk edges _ _ => edges

/-- The accessor `is_endpoint()`. -/
def is_endpoint : Node V → Bool
  | .mk _ endpoint _ => endpoint

/-- The accessor `value()`. -/
def value : Node V → V
  | .mk _ _ x => x

/-- The setter `set_endpoint(status)`. -/
def set_endpoint : Node V → Bool → Node V
  | .mk edges _ x, status => .mk edges status x

/-- The assignment `value() = v`. -/
def set_value : Node V → V → Node V
  | .mk edges endpoint _, v => .mk edges endpoint v

/-- The method `empty()`. -/
def empty (n : Node V) : Bool := n.get_edges.empty

/-- The node that `get_child(edge)` points to, `none` for the null pointer. -/
def get_child (n : Node V) (edge : Edge) : Option (Node V) := n.get_edges.find edge

/-- The method `add_edge(edge, child)`; the child's `parent` is its place. -/
def add_edge : Node V → Edge → Node V → Node V
  | .mk edges endpoint x, edge, child => .mk (edges.assign edge child) endpoint x

/-- The method `remove(const Edge& edge)`. -/
def remove : Node V → Edge → Node V
  | .mk edges endpoint x, edge => .mk (edges.erase edge) endpoint x

/-- The method `remove(const SPtr& child)`, for the child under `edge`. -/
def remove_child : Node V → Edge → Node V
  | .mk edges endpoint x, edge => .mk (edges.erase_child edge) endpoint x

/-- A node made by `std::make_shared<Node<T>>()`: no edges, not an endpoint,
a value-initialised payload. -/
def fresh [Inhabited V] : Node V := .mk .nil false default

/-- Dereference a pointer in the tree of `root`; `none` when no node of the
tree is at that place (the pointer is null or its node was destroyed). -/
def get? : Node V → NodePtr → Option (Node V)
  | n, [] => some n
  | .mk edges _ _, e :: p => match edges.find e with
    | some c => get? c p
    | none => none

/-- The tree after the write `f` through the pointer `p`. -/
def modifyAt : Node V → NodePtr → (Node V → Node V) → Node V
  | n, [], f => f n
  | .mk edges endpoint x, e :: p, f => match edges.find e with
    | some c => .mk (edges.replace e (modifyAt c p f)) endpoint x
    | none => .mk edges endpoint x

end Node

/-- The loop of `longest_common_prefix`, with `i` the counter; it runs at most
`s1.size()` times, which is the fuel given by `longest_common_prefix`. -/
def lcpLoop (s1 s2 : Edge) (start end_ : Nat) : Nat → Nat → Nat
  | 0, i => i
  | fuel + 1, i =>
    if start + i < end_ ∧ i < s1.length ∧ s1.getD i 0 = s2.getD (start + i) 0 then
      lcpLoop s1 s2 start end_ fuel (i + 1)
    else i

/-- The function `longest_common_prefix(s1, s2, start, end)`. -/
def longest_common_prefix (s1 s2 : Edge) (start end_ : Nat) : Nat :=
  lcpLoop s1 s2 start end_ s1.length 0

/-- The struct `LookupResult`. -/
structure LookupResult where
  node : NodePtr
  edge : Edge
  i : Nat
  j : Nat
  deriving DecidableEq, Repr

mutual
/-- The function `lookup(root, string, start, end)`; the pointer returned is
relative to `root`. -/
def lookup : Node V → Edge → Nat → Nat → LookupResult
  | .mk edges _ _, string, start, end_ =>
    if start = end_ then ⟨[], [], start, end_⟩
    else lookupLoop edges string start end_
/-- The `for` loop of `lookup` over the entries of `get_edges()` still to
visit. -/
def lookupLoop : Edges V → Edge → Nat → Nat → LookupResult
  | .nil, _, start, _ => ⟨[], [], start, start⟩
  | .cons edge child rest, string, start, end_ =>
    let d := longest_common_prefix edge string start end_
    let n := edge.length
    if d < n then ⟨[], edge, start, start + d⟩
    else if d = n then
      let res := lookup child string (start + d) end_
      ⟨edge :: res.node, res.edge, res.i, res.j⟩
    else lookupLoop rest string start end_
end

/-- The weak pointer to the node at `p`: null when there is no such node. -/
def weak (root : Node V) (p : NodePtr) : Option NodePtr :=
  match root.get? p with
  | some _ => some p
  | none => none

/-- The call `w.lock()` on a weak pointer, in the tree `root` as it is at the
time of the call: the node pointed to, or `none` (an empty `shared_ptr`) when
the pointer is null or has expired.  A node that is no longer in the map of its
parent has lost its only owner and is destroyed, so its weak pointers expire. -/
def lock (root : Node V) (w : Option NodePtr) : Option (Node V) :=
  match w with
  | some p => root.get? p
  | none => none

/-- The method `_lookup(string)` of the trie whose root node is `root`. -/
def _lookup (root : Node V) (string : Edge) : LookupResult :=
  lookup root string 0 string.length

/-- The method `find_node(string)`: the node found, or `none` for the pointer
to the temporary node, which has expired when the function returns. -/
def find_node (root : Node V) (string : Edge) : Option NodePtr :=
  let res := _lookup root string
  let is_endpoint : Bool :=
    match root.get? res.node with
    | some nd => nd.is_endpoint
    | none => false
  if res.i = res.j ∧ res.j = string.length ∧ is_endpoint = true then some res.node
  else none

/-- The method `contains(string)`. -/
def contains (root : Node V) (string : Edge) : Bool :=
  (find_node root string).isSome

/-- The method `find(string)`; the exception thrown is the error. -/
def find (root : Node V) (string : Edge) : Except String V :=
  match find_node root string with
  | some p =>
    match root.get? p with
    | some nd => .ok nd.value
    | none => .error "null pointer"
  | none => .error "Key not found."

/-- The function `slice(s, start, end)`. -/
def slice (s : Edge) (start : Nat) (end_ : Int) : Edge :=
  if end_ < 0 then s.drop start else (s.take end_.toNat).drop start

/-- The method `insert(string, value)` of the trie whose root node is `root`:
the root afterwards, or `none` when the call dereferences a null pointer
(`add_edge` writes `child->parent` through its argument).  The `int n` of the
source is the length of the key here, as it is for keys shorter than 2^31
bytes (`int_of_size`). -/
def insert [Inhabited V] (root : Node V) (string : Edge) (value : V) : Option (Node V) :=
  let res := _lookup root string
  let n := string.length
  if (if res.i = res.j then 1 else 0) = n then
    -- `res.i == res.j == n` compares the truth value of `res.i == res.j` with `n`
    some (root.modifyAt res.node fun nd => (nd.set_endpoint true).set_value value)
  else if res.i = res.j ∧ res.j < n then
    let new_node : Node V := (Node.fresh.set_endpoint true).set_value value
    some (root.modifyAt res.node fun nd => nd.add_edge (slice string res.i (-1)) new_node)
  else if res.i < res.j then
    let d := res.j - res.i
    -- `auto child = res.node.lock()->get_child(res.edge)`: a `WPtr`
    let child := weak root (res.node ++ [res.edge])
    -- `res.node.lock()->remove(res.edge)`
    let root1 := root.modifyAt res.node fun nd => nd.remove res.edge
    -- `res.node.lock()->add_edge(slice(res.edge, 0, d), middle_node)`
    let middle_node : NodePtr := res.node ++ [slice res.edge 0 d]
    let root2 := root1.modifyAt res.node fun nd => nd.add_edge (slice res.edge 0 d) Node.fresh
    -- `middle_node->add_edge(slice(res.edge, d, -1), child.lock())`
    match lock root2 child with
    | none => none
    | some c =>
      let root3 := root2.modifyAt middle_node fun nd => nd.add_edge (slice res.edge d (-1)) c
      if res.j = string.length then
        some (root3.modifyAt middle_node fun nd => (nd.set_endpoint true).set_value value)
      else
        let new_node : NodePtr := middle_node ++ [slice string res.j (-1)]
        let root4 := root3.modifyAt middle_node fun nd =>
          nd.add_edge (slice string res.j (-1)) Node.fresh
        some (root4.modifyAt new_node fun nd => (nd.set_endpoint true).set_value value)
  else some root

/-- The `while` loop of `remove`.  The variable `node` is given by its chain of
`parent` references, the labels from the node up to the root; `remove(node)`
erases the entry of the parent that holds `node`, which is the entry of the
first label of the chain. -/
def compact (root : Node V) : List Edge → Node V
  | [] => root
  | e :: up =>
    match root.get? (e :: up).reverse with
    | some nd =>
      if nd.is_endpoint = false ∧ nd.empty = true then
        compact (root.modifyAt up.reverse fun parent => parent.remove_child e) up
      else root
    | none => root

/-- The method `remove(string)`: the value returned and the root afterwards. -/
def remove (root : Node V) (string : Edge) : Bool × Node V :=
  match find_node root string with
  | none => (false, root)
  | some node =>
    let root1 := root.modifyAt node fun nd => nd.set_endpoint false
    (true, compact root1 node.reverse)

/-- The constructor `CompressedTrie()`: a root without edges. -/
def new [Inhabited V] : Node V := Node.fresh

/-- The trie of Scenario B after `insert("car", 1)` and `insert("cart", 2)`. -/
def carTrie : Node Nat :=
  .mk (.cons [99, 97, 114] (.mk (.cons [116] (.mk .nil true 2) .nil) true 1) .nil) false 0

/-- One call of a mutating method. -/
inductive Op (V : Type) : Type where
  | insert (string : Edge) (value : V) : Op V
  | remove (string : Edge) : Op V

/-- The root after one call; `none` when the call dereferences a null
pointer. -/
def step [Inhabited V] (root : Node V) : Op V → Option (Node V)
  | .insert string value => insert root string value
  | .remove string => some (remove root string).2

/-- The root after the calls `ops`, made in order. -/
def run [Inhabited V] (root : Node V) : List (Op V) → Option (Node V)
  | [] => some root
  | op :: ops =>
    match step root op with
    | some root1 => run root1 ops
    | none => none

/-- The tries that calls of `insert` and `remove` make from the empty trie. -/
def Reachable [Inhabited V] (root : Node V) : Prop :=
  ∃ ops : List (Op V), run new ops = some root

/-- The finite map that the specification compares the trie with. -/
abbrev RefMap (V : Type) := Edge → Option V

/-- The reference map after one call: `insert` binds the key, `remove`
unbinds it. -/
def RefMap.step (m : RefMap V) : Op V → RefMap V
  | .insert string value => fun k => if k = string then some value else m k
  | .remove string => fun k => if k = string then none else m k

/-- The reference map after the calls `ops` on the empty map. -/
def RefMap.run (ops : List (Op V)) : RefMap V :=
  ops.foldl RefMap.step (fun _ => none)

/-- The root nodes alive, each at its address. -/
abbrev Memory (V : Type) := List (Node V)

/-- An object of class `CompressedTrie<T>`: its only member `SPtr<T> root`,
the address of the root node. -/
structure Object where
  root : Nat
  deriving DecidableEq, Repr

namespace Object

/-- The constructor `CompressedTrie()`: `root` points to a node newly made. -/
def make [Inhabited V] (m : Memory V) : Object × Memory V :=
  (⟨m.length⟩, m ++ [Node.fresh])

/-- The copy constructor, which the class leaves to the compiler: the member
`root` is copied, so the copy points to the same root node. -/
def copy (t : Object) : Object := ⟨t.root⟩

/-- The method `contains` of an object. -/
def contains (m : Memory V) (t : Object) (string : Edge) : Option Bool :=
  m[t.root]?.map fun r => CompressedTrie.contains r string

/-- The method `find` of an object. -/
def find (m : Memory V) (t : Object) (string : Edge) : Option (Except String V) :=
  m[t.root]?.map fun r => CompressedTrie.find r string

/-- The method `insert` of an object: the memory afterwards. -/
def insert [Inhabited V] (m : Memory V) (t : Object) (string : Edge) (value : V) :
    Option (Memory V) :=
  match m[t.root]? with
  | some r =>
    match CompressedTrie.insert r string value with
    | some r1 => some (m.set t.root r1)
    | none => none
  | none => none

/-- The method `remove` of an object: the value returned and the memory
afterwards. -/
def remove (m : Memory V) (t : Object) (string : Edge) : Option (Bool × Memory V) :=
  m[t.root]?.map fun r =>
    ((CompressedTrie.remove r string).1, m.set t.root (CompressedTrie.remove r string).2)

end Object

/-- The branch `else if (res.i < res.j)` of `insert` on its own, for the
result `res` of `_lookup(string)`. -/
def insert_split [Inhabited V] (root : Node V) (res : LookupResult) (string : Edge)
    (value : V) : Option (Node V) :=
  let d := res.j - res.i
  let child := weak root (res.node ++ [res.edge])
  let root1 := root.modifyAt res.node fun nd => nd.remove res.edge
  let middle_node : NodePtr := res.node ++ [slice res.edge 0 d]
  let root2 := root1.modifyAt res.node fun nd => nd.add_edge (slice res.edge 0 d) Node.fresh
  match lock root2 child with
  | none => none
  | some c =>
    let root3 := root2.modifyAt middle_node fun nd => nd.add_edge (slice res.edge d (-1)) c
    if res.j = string.length then
      some (root3.modifyAt middle_node fun nd => (nd.set_endpoint true).set_value value)
    else
      let new_node : NodePtr := middle_node ++ [slice string res.j (-1)]
      let root4 := root3.modifyAt middle_node fun nd =>
        nd.add_edge (slice string res.j (-1)) Node.fresh
      some (root4.modifyAt new_node fun nd => (nd.set_endpoint true).set_value value)

/-- The labels of the entries of a map, in iteration order. -/
def Edges.labels : Edges V → List Edge
  | .nil => []
  | .cons e _ rest => e :: Edges.labels rest

/-- The labels of the edges that leave a node. -/
def Node.labels (n : Node V) : List Edge := n.get_edges.labels

mutual
/-- The order that `std::map` keeps, at every node below and including this
one: the labels of the entries increase along the iteration. -/
def Node.ordered : Node V → Bool
  | .mk edges _ _ => Edges.ordered edges
/-- The entries are in increasing order of label, and so are those of every
node below. -/
def Edges.ordered : Edges V → Bool
  | .nil => true
  | .cons e c rest =>
    Node.ordered c && Edges.ordered rest &&
      (match rest with
        | .nil => true
        | .cons e1 _ _ => strLess e e1)
end

mutual
/-- The trie of claim C19: at the node every child is removed except the one
with the byte-wise smallest label, and so again at the child that is kept. -/
def Node.keep_smallest : Node V → Node V
  | .mk edges endpoint x => .mk (Edges.keep_smallest edges) endpoint x
/-- The entry with the byte-wise smallest label alone, its child treated the
same way; no entry when there is none. -/
def Edges.keep_smallest : Edges V → Edges V
  | .nil => .nil
  | .cons e c rest =>
    match Edges.keep_smallest rest with
    | .nil => .cons e (Node.keep_smallest c) .nil
    | .cons e1 c1 _ =>
      if strLess e1 e then .cons e1 c1 .nil else .cons e (Node.keep_smallest c) .nil
end

mutual
/-- Every edge below the node, with the child it leads to, satisfies `P`. -/
def Node.every (P : Edge → Node V → Bool) : Node V → Bool
  | .mk edges _ _ => Edges.every P edges
/-- Every entry of the map satisfies `P`, and so does every edge below. -/
def Edges.every (P : Edge → Node V → Bool) : Edges V → Bool
  | .nil => true
  | .cons e c rest => P e c && Node.every P c && Edges.every P rest
end

/-- The compaction invariant of claim C11: every node other than the root is
an endpoint or has at least one child. -/
def Node.no_dead_end (root : Node V) : Bool :=
  root.every fun _ c => c.is_endpoint || !c.empty

/-- The invariant of claim C18: every edge label is a non-empty string. -/
def Node.labels_nonempty (root : Node V) : Bool :=
  root.every fun e _ => !e.isEmpty

/-- Both invariants at once: a non-empty label that leads to a node that is an
endpoint or has a child. -/
def sound_edge (e : Edge) (c : Node V) : Bool :=
  !e.isEmpty && (c.is_endpoint || !c.empty)

/-- Some entry of the map has a label that shares a non-empty prefix with
`e`, as `longest_common_prefix` measures it. -/
def Edges.clashes (e : Edge) : Edges V → Bool
  | .nil => false
  | .cons e1 _ rest =>
    decide (0 < longest_common_prefix e e1 0 e1.length) || Edges.clashes e rest

mutual
/-- The sibling invariant of claim C12, at every node below and including
this one: no two edges that leave one node share a non-empty prefix. -/
def Node.siblings_unique : Node V → Bool
  | .mk edges _ _ => Edges.siblings_unique edges
/-- No two entries of the map share a non-empty prefix, and the same below. -/
def Edges.siblings_unique : Edges V → Bool
  | .nil => true
  | .cons e c rest =>
    !(Edges.clashes e rest) && Node.siblings_unique c && Edges.siblings_unique rest
end

/-- The value that `int n = string.size()` gives to `n` (and that the `int end`
of `lookup` gets from `_lookup`): the size reduced to 32 bits, in two's
complement.  It is the size itself below 2^31. -/
def int_of_size (size : Nat) : Int :=
  (((size + 2147483648) % 4294967296 : Nat) : Int) - 2147483648

/-- The four ways through the `if` chain of `insert`. -/
inductive Branch where
  | found_node
  | new_leaf
  | split
  | nothing
  deriving DecidableEq, Repr

/-- The way that the tests of `insert` choose, from the `int` values `res.i`,
`res.j` and `n`: `res.i == res.j == n`, then `res.i == res.j && res.j < n`,
then `res.i < res.j`. -/
def insert_branch (i j n : Int) : Branch :=
  if (if i = j then 1 else 0) = n then .found_node
  else if i = j ∧ j < n then .new_leaf
  else if i < j then .split
  else .nothing

/-! ## The prefix match -/

theorem lcpLoop_ge (s1 s2 : Edge) (start end_ : Nat) (fuel i : Nat) :
    i ≤ lcpLoop s1 s2 start end_ fuel i := by
  induction fuel generalizing i with
  | zero => simp [lcpLoop]
  | succ fuel ih =>
    unfold lcpLoop
    split
    · exact Nat.le_trans (Nat.le_succ i) (ih (i + 1))
    · exact Nat.le_refl i

theorem lcpLoop_le_length (s1 s2 : Edge) (start end_ : Nat) (fuel i : Nat)
    (hi : i ≤ s1.length) : lcpLoop s1 s2 start end_ fuel i ≤ s1.length := by
  induction fuel generalizing i with
  | zero => simpa [lcpLoop] using hi
  | succ fuel ih =>
    unfold lcpLoop
    split
    · next h => exact ih (i + 1) h.2.1
    · exact hi

/-- Every position the loop has passed holds equal bytes, inside both bounds. -/
theorem lcpLoop_matched (s1 s2 : Edge) (start end_ : Nat) (fuel i t : Nat)
    (h1 : i ≤ t) (h2 : t < lcpLoop s1 s2 start end_ fuel i) :
    start + t < end_ ∧ t < s1.length ∧ s1.getD t 0 = s2.getD (start + t) 0 := by
  induction fuel generalizing i with
  | zero => simp [lcpLoop] at h2; omega
  | succ fuel ih =>
    unfold lcpLoop at h2
    split at h2
    · next h =>
      by_cases hti : t = i
      · subst hti; exact h
      · exact ih (i + 1) (by omega) h2
    · omega

theorem longest_common_prefix_le (s1 s2 : Edge) (start end_ : Nat) :
    longest_common_prefix s1 s2 start end_ ≤ s1.length :=
  lcpLoop_le_length s1 s2 start end_ s1.length 0 (Nat.zero_le _)

/-- A label matched in full lies in the string at `start`, before `end_`. -/
theorem longest_common_prefix_full (s1 s2 : Edge) (start end_ : Nat)
    (hse : start ≤ end_) (hend : end_ ≤ s2.length)
    (h : longest_common_prefix s1 s2 start end_ = s1.length) :
    start + s1.length ≤ end_ ∧ (s2.drop start).take s1.length = s1 := by
  have key : ∀ t, t < s1.length →
      start + t < end_ ∧ t < s1.length ∧ s1.getD t 0 = s2.getD (start + t) 0 := by
    intro t ht
    apply lcpLoop_matched s1 s2 start end_ s1.length 0 t (Nat.zero_le _)
    unfold longest_common_prefix at h
    omega
  have hlen : start + s1.length ≤ end_ := by
    rcases Nat.eq_zero_or_pos s1.length with h0 | hpos
    · omega
    · have := (key (s1.length - 1) (by omega)).1
      omega
  refine ⟨hlen, ?_⟩
  apply List.ext_getElem
  · simp; omega
  · intro t h1 h2
    have hk := (key t h2).2.2
    have ht2 : start + t < s2.length := by omega
    rw [List.getD_eq_getElem _ _ h2, List.getD_eq_getElem _ _ ht2] at hk
    simp [hk]

/-! ## The descent -/

/-- Induction along first children: `lookup` visits no other child. -/
theorem Node.first_child_induction {P : Node V → Prop}
    (leaf : ∀ endpoint x, P (.mk .nil endpoint x))
    (step : ∀ e c rest endpoint x, P c → P (.mk (.cons e c rest) endpoint x)) :
    ∀ n, P n := by
  intro n
  exact Node.rec (motive_1 := P) (motive_2 := fun es => ∀ endpoint x, P (.mk es endpoint x))
    (fun edges endpoint x h => h endpoint x)
    leaf
    (fun e c rest hc _ endpoint x => step e c rest endpoint x hc)
    n

theorem lookup_of_eq (n : Node V) (string : Edge) (start : Nat) :
    lookup n string start start = ⟨[], [], start, start⟩ := by
  cases n; simp [lookup]

theorem lookup_leaf (endpoint : Bool) (x : V) (string : Edge) (start end_ : Nat) :
    lookup (.mk .nil endpoint x) string start end_ =
      if start = end_ then ⟨[], [], start, end_⟩ else ⟨[], [], start, start⟩ := by
  simp [lookup, lookupLoop]

/-- The loop of `lookup` returns from its first round: the entry visited first
decides the result. -/
theorem lookup_cons (e : Edge) (c : Node V) (rest : Edges V) (endpoint : Bool) (x : V)
    (string : Edge) (start end_ : Nat) :
    lookup (.mk (.cons e c rest) endpoint x) string start end_ =
      if start = end_ then ⟨[], [], start, end_⟩
      else if longest_common_prefix e string start end_ < e.length then
        ⟨[], e, start, start + longest_common_prefix e string start end_⟩
      else
        ⟨e :: (lookup c string (start + e.length) end_).node,
          (lookup c string (start + e.length) end_).edge,
          (lookup c string (start + e.length) end_).i,
          (lookup c string (start + e.length) end_).j⟩ := by
  have hle := longest_common_prefix_le e string start end_
  simp only [lookup, lookupLoop]
  by_cases h1 : start = end_
  · simp [h1]
  · simp only [h1, if_false]
    by_cases h2 : longest_common_prefix e string start end_ < e.length
    · simp [h2]
    · have h3 : longest_common_prefix e string start end_ = e.length := by omega
      simp [h3]

/-- The pointer that `lookup` returns points to a node of the tree. -/
theorem lookup_node_valid (string : Edge) (end_ : Nat) (n : Node V) :
    ∀ start : Nat, (n.get? (lookup n string start end_).node).isSome = true := by
  induction n using Node.first_child_induction with
  | leaf endpoint x =>
    intro start
    rw [lookup_leaf]
    split <;> rfl
  | step e c rest endpoint x ih =>
    intro start
    rw [lookup_cons]
    by_cases h1 : start = end_
    · rw [if_pos h1]; rfl
    rw [if_neg h1]
    by_cases h2 : longest_common_prefix e string start end_ < e.length
    · rw [if_pos h2]; rfl
    rw [if_neg h2]
    simp only [Node.get?, Edges.find, if_true]
    exact ih (start + e.length)

theorem lookup_edges_only (edges : Edges V) (endpoint endpoint1 : Bool) (x x1 : V)
    (string : Edge) (start end_ : Nat) :
    lookup (.mk edges endpoint x) string start end_ =
      lookup (.mk edges endpoint1 x1) string start end_ := by
  simp [lookup]

/-- The nodes that two calls of `lookup` on one tree reach lie on one branch. -/
theorem lookup_node_comparable (n : Node V) :
    ∀ (s : Edge) (a b : Nat) (s1 : Edge) (a1 b1 : Nat),
      (lookup n s a b).node <+: (lookup n s1 a1 b1).node ∨
        (lookup n s1 a1 b1).node <+: (lookup n s a b).node := by
  induction n using Node.first_child_induction with
  | leaf endpoint x =>
    intro s a b s1 a1 b1
    left
    rw [lookup_leaf]
    split <;> exact List.nil_prefix
  | step e c rest endpoint x ih =>
    intro s a b s1 a1 b1
    rw [lookup_cons, lookup_cons]
    by_cases h1 : a = b
    · left; rw [if_pos h1]; exact List.nil_prefix
    by_cases h2 : longest_common_prefix e s a b < e.length
    · left; rw [if_neg h1, if_pos h2]; exact List.nil_prefix
    by_cases h3 : a1 = b1
    · right; rw [if_pos h3]; exact List.nil_prefix
    by_cases h4 : longest_common_prefix e s1 a1 b1 < e.length
    · right; rw [if_neg h3, if_pos h4]; exact List.nil_prefix
    rw [if_neg h1, if_neg h2, if_neg h3, if_neg h4]
    simp only [List.prefix_cons_inj]
    exact ih s (a + e.length) b s1 (a1 + e.length) b1

/-- When `lookup` consumes the whole range, the labels on the way to the node
reached spell the range. -/
theorem lookup_full_flatten (k : Edge) (b : Nat) (hb : b ≤ k.length) (n : Node V) :
    ∀ (a : Nat) (p : NodePtr) (e : Edge), a ≤ b → lookup n k a b = ⟨p, e, b, b⟩ →
      (k.drop a).take (b - a) = p.flatten := by
  induction n using Node.first_child_induction with
  | leaf endpoint x =>
    intro a p e hab h
    rw [lookup_leaf] at h
    split at h
    · next hEq => subst hEq; injection h with h1; subst h1; simp
    · next hne => injection h with _ _ h3; exact absurd h3 hne
  | step e0 c rest endpoint x ih =>
    intro a p e hab h
    rw [lookup_cons] at h
    by_cases h1 : a = b
    · rw [if_pos h1] at h; subst h1; injection h with h1; subst h1; simp
    rw [if_neg h1] at h
    by_cases h2 : longest_common_prefix e0 k a b < e0.length
    · rw [if_pos h2] at h; injection h with _ _ h3; exact absurd h3 h1
    rw [if_neg h2] at h
    have hfull : longest_common_prefix e0 k a b = e0.length :=
      Nat.le_antisymm (longest_common_prefix_le e0 k a b) (Nat.le_of_not_lt h2)
    obtain ⟨hle, htake⟩ := longest_common_prefix_full e0 k a b hab hb hfull
    injection h with hp he hi hj
    have hrec : lookup c k (a + e0.length) b =
        ⟨(lookup c k (a + e0.length) b).node, e, b, b⟩ := by
      cases hr : lookup c k (a + e0.length) b with
      | mk n1 e1 i1 j1 =>
        rw [hr] at he hi hj
        simp only at he hi hj
        rw [he, hi, hj]
    have := ih (a + e0.length) _ e hle hrec
    rw [← hp, List.flatten_cons, ← this]
    have hsplit : b - a = e0.length + (b - (a + e0.length)) := by omega
    rw [hsplit, List.take_add, htake, List.drop_drop]

/-- Two keys that `lookup` consumes at one node are the same key. -/
theorem lookup_full_inj (n : Node V) (k k1 : Edge) (p : NodePtr) (e e1 : Edge)
    (h : lookup n k 0 k.length = ⟨p, e, k.length, k.length⟩)
    (h1 : lookup n k1 0 k1.length = ⟨p, e1, k1.length, k1.length⟩) : k = k1 := by
  have a := lookup_full_flatten k k.length (Nat.le_refl _) n 0 p e (Nat.zero_le _) h
  have b := lookup_full_flatten k1 k1.length (Nat.le_refl _) n 0 p e1 (Nat.zero_le _) h1
  simp at a b
  rw [a, b]

/-! ## Pointers into the tree -/

theorem Node.get?_nil (n : Node V) : n.get? [] = some n := by
  cases n; rfl

theorem Node.modifyAt_nil (n : Node V) (f : Node V → Node V) : n.modifyAt [] f = f n := by
  cases n; rfl

theorem Node.get?_first (e : Edge) (c : Node V) (rest : Edges V) (endpoint : Bool) (x : V)
    (p : NodePtr) : (Node.mk (.cons e c rest) endpoint x).get? (e :: p) = c.get? p := by
  simp [Node.get?, Edges.find]

theorem Node.modifyAt_first (e : Edge) (c : Node V) (rest : Edges V) (endpoint : Bool) (x : V)
    (p : NodePtr) (f : Node V → Node V) :
    (Node.mk (.cons e c rest) endpoint x).modifyAt (e :: p) f =
      .mk (.cons e (c.modifyAt p f) rest) endpoint x := by
  simp [Node.modifyAt, Edges.find, Edges.replace]

/-- A write below a node leaves the flag and the value of the node alone. -/
theorem Node.modifyAt_flags (n : Node V) (r : NodePtr) (f : Node V → Node V)
    (hf : r = [] → ∀ m, (f m).is_endpoint = m.is_endpoint ∧ (f m).value = m.value) :
    (n.modifyAt r f).is_endpoint = n.is_endpoint ∧ (n.modifyAt r f).value = n.value := by
  cases r with
  | nil => rw [Node.modifyAt_nil]; exact hf rfl n
  | cons e r =>
    cases n with
    | mk edges endpoint x =>
      simp only [Node.modifyAt]
      split <;> simp [Node.is_endpoint, Node.value]

/-- Induction over the entries of a map, in iteration order. -/
theorem Edges.entries_induction {P : Edges V → Prop} (nil : P .nil)
    (cons : ∀ e c rest, P rest → P (.cons e c rest)) : ∀ es, P es := by
  intro es
  exact Edges.rec (motive_1 := fun _ => True) (motive_2 := P)
    (fun _ _ _ _ => trivial) nil (fun e c rest _ h => cons e c rest h) es

theorem Edges.find_replace (edges : Edges V) (e : Edge) (c : Node V)
    (h : (edges.find e).isSome) : (edges.replace e c).find e = some c := by
  induction edges using Edges.entries_induction with
  | nil => simp [Edges.find] at h
  | cons e1 c1 rest ih =>
    simp only [Edges.replace]
    by_cases he : e1 = e
    · simp [he, Edges.find]
    · simp only [he, if_false, Edges.find]
      simp only [Edges.find, he, if_false] at h
      exact ih h

theorem Node.get?_modifyAt (f : Node V → Node V) (p : NodePtr) :
    ∀ n : Node V, (n.modifyAt p f).get? p = (n.get? p).map f := by
  induction p with
  | nil => intro n; simp [Node.get?_nil, Node.modifyAt_nil]
  | cons e p ih =>
    intro n
    cases n with
    | mk edges endpoint x =>
      simp only [Node.modifyAt, Node.get?]
      cases hfind : edges.find e with
      | none => simp [Node.get?, hfind]
      | some c =>
        simp only [Node.get?]
        rw [Edges.find_replace edges e _ (by simp [hfind])]
        exact ih c

theorem Node.get?_append (p r : NodePtr) :
    ∀ n : Node V, n.get? (p ++ r) = (n.get? p).bind fun m => m.get? r := by
  induction p with
  | nil => intro n; simp [Node.get?_nil]
  | cons e p ih =>
    intro n
    cases n with
    | mk edges endpoint x =>
      simp only [List.cons_append, Node.get?]
      cases edges.find e with
      | none => simp
      | some c => exact ih c

theorem lookup_congr (n m : Node V) (h : n.get_edges = m.get_edges) (string : Edge)
    (start end_ : Nat) : lookup n string start end_ = lookup m string start end_ := by
  cases n; cases m
  simp only [Node.get_edges] at h
  subst h
  exact lookup_edges_only _ _ _ _ _ _ _ _

theorem Node.get?_congr (n m : Node V) (h : n.get_edges = m.get_edges) (e : Edge)
    (p : NodePtr) : n.get? (e :: p) = m.get? (e :: p) := by
  cases n; cases m
  simp only [Node.get_edges] at h
  subst h
  simp [Node.get?]

/-! ## Writes that a completed descent does not see -/

/-- A write at or below the node where `lookup` consumed the whole range
changes neither the result of that `lookup` nor the flag and value found. -/
theorem lookup_modifyAt_below (f : Node V → Node V) (k : Edge) (b : Nat) (r : NodePtr)
    (hf : r = [] → ∀ m, (f m).is_endpoint = m.is_endpoint ∧ (f m).value = m.value)
    (n : Node V) :
    ∀ (a : Nat) (p : NodePtr) (e : Edge), lookup n k a b = ⟨p, e, b, b⟩ →
      lookup (n.modifyAt (p ++ r) f) k a b = ⟨p, e, b, b⟩ ∧
        ((n.modifyAt (p ++ r) f).get? p).map (fun m => (m.is_endpoint, m.value)) =
          (n.get? p).map (fun m => (m.is_endpoint, m.value)) := by
  induction n using Node.first_child_induction with
  | leaf endpoint x =>
    intro a p e h
    rw [lookup_leaf] at h
    split at h
    · next hEq =>
      subst hEq
      injection h with h1 h2
      subst h1 h2
      refine ⟨lookup_of_eq _ _ _, ?_⟩
      have := Node.modifyAt_flags (Node.mk .nil endpoint x) r f hf
      simp [Node.get?_nil, this.1, this.2]
    · next hne => injection h with _ _ h3; exact absurd h3 hne
  | step e0 c rest endpoint x ih =>
    intro a p e h
    rw [lookup_cons] at h
    by_cases h1 : a = b
    · rw [if_pos h1] at h
      subst h1
      injection h with h1 h2
      subst h1 h2
      refine ⟨lookup_of_eq _ _ _, ?_⟩
      have := Node.modifyAt_flags (Node.mk (.cons e0 c rest) endpoint x) r f hf
      simp [Node.get?_nil, this.1, this.2]
    rw [if_neg h1] at h
    by_cases h2 : longest_common_prefix e0 k a b < e0.length
    · rw [if_pos h2] at h; injection h with _ _ h3; exact absurd h3 h1
    rw [if_neg h2] at h
    injection h with hp he hi hj
    cases hr : lookup c k (a + e0.length) b with
    | mk n1 e1 i1 j1 =>
      rw [hr] at hp he hi hj
      simp only at hp he hi hj
      subst hp he hi
      subst hj
      obtain ⟨ih1, ih2⟩ := ih (a + e0.length) n1 e1 hr
      rw [List.cons_append, Node.modifyAt_first, lookup_cons, if_neg h1, if_neg h2, ih1,
        Node.get?_first, Node.get?_first]
      exact ⟨rfl, ih2⟩

/-- A write above the node that `lookup` reaches, one that keeps the map of
children, changes neither the result of that `lookup` nor the node reached. -/
theorem lookup_modifyAt_above (f : Node V → Node V)
    (hf : ∀ m, (f m).get_edges = m.get_edges) (k : Edge) (b : Nat) (n : Node V) :
    ∀ (a : Nat) (p r : NodePtr), r ≠ [] → (lookup n k a b).node = p ++ r →
      lookup (n.modifyAt p f) k a b = lookup n k a b ∧
        (n.modifyAt p f).get? (p ++ r) = n.get? (p ++ r) := by
  induction n using Node.first_child_induction with
  | leaf endpoint x =>
    intro a p r hr h
    cases p with
    | nil =>
      rw [Node.modifyAt_nil]
      refine ⟨lookup_congr _ _ (hf _) _ _ _, ?_⟩
      cases r with
      | nil => exact absurd rfl hr
      | cons e1 r1 => exact Node.get?_congr _ _ (hf _) _ _
    | cons e1 p1 =>
      rw [lookup_leaf] at h
      split at h <;> simp at h
  | step e0 c rest endpoint x ih =>
    intro a p r hr h
    cases p with
    | nil =>
      rw [Node.modifyAt_nil]
      refine ⟨lookup_congr _ _ (hf _) _ _ _, ?_⟩
      cases r with
      | nil => exact absurd rfl hr
      | cons e1 r1 => exact Node.get?_congr _ _ (hf _) _ _
    | cons e1 p1 =>
      rw [lookup_cons] at h
      by_cases h1 : a = b
      · rw [if_pos h1] at h; simp at h
      rw [if_neg h1] at h
      by_cases h2 : longest_common_prefix e0 k a b < e0.length
      · rw [if_pos h2] at h; simp at h
      rw [if_neg h2] at h
      simp only [List.cons_append, List.cons.injEq] at h
      obtain ⟨he, hp⟩ := h
      subst he
      obtain ⟨ih1, ih2⟩ := ih (a + e0.length) p1 r hr hp
      rw [List.cons_append, Node.modifyAt_first, lookup_cons, lookup_cons, if_neg h1, if_neg h2,
        if_neg h1, if_neg h2, ih1, Node.get?_first, Node.get?_first]
      exact ⟨rfl, ih2⟩

/-! ## Queries -/

/-- What `find_node`, `contains` and `find` return when `lookup` consumes the
whole key at an endpoint. -/
theorem find_of_lookup (root : Node V) (k : Edge) (p : NodePtr) (e : Edge) (nd : Node V)
    (h : lookup root k 0 k.length = ⟨p, e, k.length, k.length⟩)
    (hnd : root.get? p = some nd) (hend : nd.is_endpoint = true) :
    find_node root k = some p ∧ contains root k = true ∧ find root k = .ok nd.value := by
  have h1 : find_node root k = some p := by
    simp [find_node, _lookup, h, hnd, hend]
  refine ⟨h1, ?_, ?_⟩
  · simp [contains, h1]
  · simp [find, h1, hnd]

/-- A key that `contains` accepts was consumed in full at an endpoint. -/
theorem lookup_of_contains (root : Node V) (k : Edge) (h : contains root k = true) :
    ∃ p e nd, lookup root k 0 k.length = ⟨p, e, k.length, k.length⟩ ∧
      root.get? p = some nd ∧ nd.is_endpoint = true := by
  unfold contains find_node _lookup at h
  cases hr : lookup root k 0 k.length with
  | mk p e i j =>
    rw [hr] at h
    simp only at h
    split at h
    · next hc =>
      obtain ⟨hij, hj, hend⟩ := hc
      subst hj
      subst hij
      cases hg : root.get? p with
      | none => rw [hg] at hend; simp at hend
      | some nd =>
        rw [hg] at hend
        exact ⟨p, e, nd, rfl, hg, hend⟩
    · simp at h

theorem find_node_eq_none (root : Node V) (k : Edge) (h : contains root k = false) :
    find_node root k = none := by
  unfold contains at h
  cases hf : find_node root k with
  | none => rfl
  | some p => rw [hf] at h; simp at h

/-! ## The loop of `remove` -/

/-- The loop stops at once at a node that has a child. -/
theorem compact_of_not_empty (t : Node V) (chain : List Edge) (nd : Node V)
    (h : t.get? chain.reverse = some nd) (hne : nd.empty = false) : compact t chain = t := by
  cases chain with
  | nil => rfl
  | cons e up =>
    unfold compact
    rw [h]
    simp [hne]

/-- The loop keeps a key that was consumed at an endpoint on the way from the
root to the node where the loop starts. -/
theorem compact_keeps (k : Edge) (p : NodePtr) (e : Edge) (v : V) :
    ∀ (rr : List Edge) (t : Node V),
      lookup t k 0 k.length = ⟨p, e, k.length, k.length⟩ →
      (t.get? p).map (fun m => (m.is_endpoint, m.value)) = some (true, v) →
      lookup (compact t (rr ++ p.reverse)) k 0 k.length = ⟨p, e, k.length, k.length⟩ ∧
        ((compact t (rr ++ p.reverse)).get? p).map (fun m => (m.is_endpoint, m.value)) =
          some (true, v) := by
  intro rr
  induction rr with
  | nil =>
    intro t h1 h2
    rw [List.nil_append]
    cases hrev : p.reverse with
    | nil => exact ⟨h1, h2⟩
    | cons e1 up =>
      have hp : (e1 :: up).reverse = p := by rw [← hrev, List.reverse_reverse]
      unfold compact
      rw [hp]
      cases hg : t.get? p with
      | none => exact ⟨h1, h2⟩
      | some nd =>
        rw [hg] at h2
        simp only [Option.map_some', Option.some.injEq, Prod.mk.injEq] at h2
        simp only [h2.1]
        rw [if_neg (by simp)]
        rw [hg]
        exact ⟨h1, by simp [h2.1, h2.2]⟩
  | cons e1 rr ih =>
    intro t h1 h2
    rw [List.cons_append]
    unfold compact
    split
    · next nd hnd =>
      split
      · apply ih
        · rw [List.reverse_append, List.reverse_reverse]
          exact (lookup_modifyAt_below _ k k.length rr.reverse
            (fun _ m => by cases m; exact ⟨rfl, rfl⟩) t 0 p e h1).1
        · rw [List.reverse_append, List.reverse_reverse]
          rw [(lookup_modifyAt_below _ k k.length rr.reverse
            (fun _ m => by cases m; exact ⟨rfl, rfl⟩) t 0 p e h1).2]
          exact h2
      · exact ⟨h1, h2⟩
    · exact ⟨h1, h2⟩

/-! ## Claims -/

/-- Scenario B builds `carTrie`. -/
theorem carTrie_eq :
    (insert (new : Node Nat) [99, 97, 114] 1).bind (fun t => insert t [99, 97, 114, 116] 2) =
      some carTrie := rfl

/-- C6 (deletion locality): in every trie, when two distinct keys `k` and `k1`
are both contained, then after `remove(k)` the key `k1` is still contained and
`find(k1)` returns the value it returned before. -/
theorem remove_keeps_other_keys (root : Node V) (k k1 : Edge) (hne : k ≠ k1)
    (hk : contains root k = true) (hk1 : contains root k1 = true) :
    contains (remove root k).2 k1 = true ∧ find (remove root k).2 k1 = find root k1 := by
  obtain ⟨p, e, nd, hl, hg, hend⟩ := lookup_of_contains root k hk
  obtain ⟨p1, e1, nd1, hl1, hg1, hend1⟩ := lookup_of_contains root k1 hk1
  have hfn := (find_of_lookup root k p e nd hl hg hend).1
  have hfind1 := (find_of_lookup root k1 p1 e1 nd1 hl1 hg1 hend1).2.2
  have hpne : p ≠ p1 := by
    intro h
    subst h
    exact hne (lookup_full_inj root k k1 p e e1 hl hl1)
  have hrem : remove root k =
      (true, compact (root.modifyAt p fun m => m.set_endpoint false) p.reverse) := by
    simp [remove, hfn]
  rw [hrem]
  simp only
  have hcmp := lookup_node_comparable root k 0 k.length k1 0 k1.length
  rw [hl, hl1] at hcmp
  simp only at hcmp
  rcases hcmp with hpre | hpre
  · -- `k1` lies below `k`: the node of `k` has a child and the loop does not run
    obtain ⟨r, hr⟩ := hpre
    have hrne : r ≠ [] := by
      intro h
      subst h
      simp at hr
      exact hpne hr
    subst hr
    have hgp : nd.get? r = some nd1 := by
      have := hg1
      rw [Node.get?_append, hg] at this
      simpa using this
    have hne_empty : (nd.set_endpoint false).empty = false := by
      cases r with
      | nil => exact absurd rfl hrne
      | cons e2 r2 =>
        cases nd with
        | mk edges endpoint x =>
          cases edges with
          | nil => simp [Node.get?, Edges.find] at hgp
          | cons e3 c3 rest => rfl
    have hcompact := compact_of_not_empty (root.modifyAt p fun m => m.set_endpoint false)
      p.reverse (nd.set_endpoint false)
      (by rw [List.reverse_reverse, Node.get?_modifyAt, hg]; rfl) hne_empty
    rw [hcompact]
    obtain ⟨ha, hb⟩ := lookup_modifyAt_above (fun m => m.set_endpoint false)
      (by intro m; cases m; rfl) k1 k1.length root 0 p r hrne (by rw [hl1])
    have := find_of_lookup (root.modifyAt p fun m => m.set_endpoint false) k1 (p ++ r) e1 nd1
      (by rw [ha, hl1]) (by rw [hb]; exact hg1) hend1
    exact ⟨this.2.1, by rw [this.2.2, hfind1]⟩
  · -- `k1` lies above `k`: the loop stops at the endpoint of `k1` at the latest
    obtain ⟨r, hr⟩ := hpre
    have hrne : r ≠ [] := by
      intro h
      subst h
      simp at hr
      exact hpne hr.symm
    subst hr
    obtain ⟨ha, hb⟩ := lookup_modifyAt_below (fun m => m.set_endpoint false) k1 k1.length r
      (fun h => absurd h hrne) root 0 p1 e1 hl1
    have hinv : ((root.modifyAt (p1 ++ r) fun m => m.set_endpoint false).get? p1).map
        (fun m => (m.is_endpoint, m.value)) = some (true, nd1.value) := by
      rw [hb, hg1]
      simp [hend1]
    obtain ⟨hc, hd⟩ := compact_keeps k1 p1 e1 nd1.value r.reverse _ ha hinv
    rw [List.reverse_append]
    cases hg2 : (compact (root.modifyAt (p1 ++ r) fun m => m.set_endpoint false)
        (r.reverse ++ p1.reverse)).get? p1 with
    | none => rw [hg2] at hd; simp at hd
    | some nd2 =>
      rw [hg2] at hd
      simp only [Option.map_some', Option.some.injEq, Prod.mk.injEq] at hd
      have := find_of_lookup _ k1 p1 e1 nd2 hc hg2 hd.1
      exact ⟨this.2.1, by rw [this.2.2, hfind1, hd.2]⟩

/-- Scenario B at work in C6: with "car" and "cart" stored, removing "cart"
leaves "car" contained with its value. -/
theorem remove_keeps_other_keys_witness :
    contains (remove carTrie [99, 97, 114, 116]).2 [99, 97, 114] = true ∧
      find (remove carTrie [99, 97, 114, 116]).2 [99, 97, 114] =
        find carTrie [99, 97, 114] :=
  remove_keeps_other_keys carTrie [99, 97, 114, 116] [99, 97, 114] (by decide) (by decide)
    (by decide)

/-- C7 (absent removal): in every trie, for a key `k` that is not contained,
`remove(k)` returns false and leaves the trie as it is, so `contains` and
`find` answer every key as before. -/
theorem remove_absent (root : Node V) (k : Edge) (h : contains root k = false) :
    (remove root k).1 = false ∧ (remove root k).2 = root ∧
      ∀ k1, contains (remove root k).2 k1 = contains root k1 ∧
        find (remove root k).2 k1 = find root k1 := by
  have hrem : remove root k = (false, root) := by
    simp [remove, find_node_eq_none root k h]
  rw [hrem]
  exact ⟨rfl, rfl, fun _ => ⟨rfl, rfl⟩⟩

/-- The key "ca", a proper prefix of the stored "car", is absent: removing it
returns false and changes nothing. -/
theorem remove_absent_witness :
    contains carTrie [99, 97] = false ∧
      (remove carTrie [99, 97]).1 = false ∧ (remove carTrie [99, 97]).2 = carTrie ∧
        ∀ k1, contains (remove carTrie [99, 97]).2 k1 = contains carTrie k1 ∧
          find (remove carTrie [99, 97]).2 k1 = find carTrie k1 :=
  ⟨by decide, remove_absent carTrie [99, 97] (by decide)⟩

/-- C8: `find(k)` throws "Key not found." exactly when `contains(k)` is false;
when `contains(k)` is true, `lookup` consumed the whole key at a node that is an
endpoint and `find(k)` returns the value stored in that node.  Both queries
only read the trie. -/
theorem find_fails_iff_absent (root : Node V) (k : Edge) :
    (find root k = .error "Key not found." ↔ contains root k = false) ∧
      (contains root k = true →
        ∃ nd, root.get? (_lookup root k).node = some nd ∧
          (_lookup root k).i = k.length ∧ (_lookup root k).j = k.length ∧
          nd.is_endpoint = true ∧ find root k = .ok nd.value) := by
  have hpos : contains root k = true →
      ∃ nd, root.get? (_lookup root k).node = some nd ∧
        (_lookup root k).i = k.length ∧ (_lookup root k).j = k.length ∧
        nd.is_endpoint = true ∧ find root k = .ok nd.value := by
    intro h
    obtain ⟨p, e, nd, hl, hg, hend⟩ := lookup_of_contains root k h
    refine ⟨nd, ?_, ?_, ?_, hend, (find_of_lookup root k p e nd hl hg hend).2.2⟩
    · simp [_lookup, hl, hg]
    · simp [_lookup, hl]
    · simp [_lookup, hl]
  refine ⟨⟨?_, ?_⟩, hpos⟩
  · intro herr
    cases hc : contains root k with
    | false => rfl
    | true =>
      obtain ⟨nd, _, _, _, _, hok⟩ := hpos hc
      rw [hok] at herr
      cases herr
  · intro h
    simp [find, find_node_eq_none root k h]

/-- In the trie of "car" and "cart": `find("cart")` returns 2, `find("ca")`
throws. -/
theorem find_fails_iff_absent_witness :
    find carTrie [99, 97, 114, 116] = .ok 2 ∧ find carTrie [99, 97] = .error "Key not found." :=
  ⟨by
    obtain ⟨nd, h1, _, _, _, h5⟩ :=
      (find_fails_iff_absent carTrie [99, 97, 114, 116]).2 (by decide)
    have h6 : nd = Node.mk .nil true 2 := by
      have : carTrie.get? (_lookup carTrie [99, 97, 114, 116]).node =
          some (Node.mk .nil true 2) := rfl
      rw [this] at h1
      exact (Option.some.inj h1).symm
    rw [h5, h6]
    rfl,
   (find_fails_iff_absent carTrie [99, 97]).1.2 (by decide)⟩

/-! ## The split branch of `insert` -/

theorem Edges.find_erase_self (edges : Edges V) (e : Edge) : (edges.erase e).find e = none := by
  induction edges using Edges.entries_induction with
  | nil => rfl
  | cons e1 c1 rest ih =>
    simp only [Edges.erase]
    by_cases he : e1 = e
    · simpa [he] using ih
    · simpa [he, Edges.find] using ih

theorem Edges.find_assign_ne (edges : Edges V) (e0 e : Edge) (c : Node V) (hne : e0 ≠ e) :
    (edges.assign e0 c).find e = edges.find e := by
  induction edges using Edges.entries_induction with
  | nil => simp [Edges.assign, Edges.find, hne]
  | cons e1 c1 rest ih =>
    simp only [Edges.assign]
    by_cases h1 : e1 = e0
    · subst h1
      simp [Edges.find, hne]
    · have h3 : e1 = e → e0 ≠ e := fun _ => hne
      cases h2 : strLess e0 e1 <;> simp [h1, h2, Edges.find, hne, ih]

theorem slice_zero_nat (s : Edge) (d : Nat) : slice s 0 (d : Int) = s.take d := by
  unfold slice
  rw [if_neg (by omega)]
  simp

/-- A partial match is the only way for `lookup` to return `i < j`, and it
stops inside the label `edge`. -/
theorem lookup_split_bound (k : Edge) (b : Nat) (n : Node V) :
    ∀ a : Nat, (lookup n k a b).i < (lookup n k a b).j →
      (lookup n k a b).j - (lookup n k a b).i < (lookup n k a b).edge.length := by
  induction n using Node.first_child_induction with
  | leaf endpoint x =>
    intro a h
    rw [lookup_leaf] at h
    split at h <;> simp at h
    omega
  | step e0 c rest endpoint x ih =>
    intro a
    rw [lookup_cons]
    by_cases h1 : a = b
    · rw [if_pos h1]; simp; omega
    rw [if_neg h1]
    by_cases h2 : longest_common_prefix e0 k a b < e0.length
    · rw [if_pos h2]; simp; omega
    rw [if_neg h2]
    exact ih (a + e0.length)

/-- The child that `insert` detaches for a split has expired when `insert`
locks it: the entry erased from the map was its only owner. -/
theorem lock_after_erase (root : Node V) (p : NodePtr) (e e0 : Edge) (m : Node V)
    (hne : e0 ≠ e) :
    lock ((root.modifyAt p fun nd => nd.remove e).modifyAt p fun nd => nd.add_edge e0 m)
      (weak root (p ++ [e])) = none := by
  unfold weak
  cases root.get? (p ++ [e]) with
  | none => rfl
  | some c =>
    simp only [lock]
    rw [Node.get?_append, Node.get?_modifyAt, Node.get?_modifyAt]
    cases root.get? p with
    | none => rfl
    | some nd =>
      cases nd with
      | mk edges endpoint x =>
        simp only [Option.map_some', Option.some_bind, Node.remove, Node.add_edge, Node.get?]
        rw [Edges.find_assign_ne _ _ _ _ hne, Edges.find_erase_self]

/-- C10 (edge split): whenever `lookup` returns `i < j`, `insert` erases the
entry of `edge`, which destroys the child it meant to keep, and then passes
the empty `child.lock()` to `add_edge`: the call dereferences a null pointer
and yields no trie, so no split postcondition holds. -/
theorem insert_split_null [Inhabited V] (root : Node V) (string : Edge) (value : V)
    (h : (_lookup root string).i < (_lookup root string).j) :
    insert root string value = none := by
  have hn : string.length ≠ 0 := by
    intro h0
    unfold _lookup at h
    rw [h0, lookup_of_eq] at h
    exact Nat.lt_irrefl _ h
  have hd : (_lookup root string).j - (_lookup root string).i <
      (_lookup root string).edge.length := lookup_split_bound string string.length root 0 h
  have hne : slice (_lookup root string).edge 0
      (((_lookup root string).j - (_lookup root string).i : Nat) : Int) ≠
      (_lookup root string).edge := by
    intro heq
    have hlen := congrArg List.length heq
    rw [slice_zero_nat, List.length_take] at hlen
    omega
  unfold insert
  simp only
  rw [if_neg (by rw [if_neg (Nat.ne_of_lt h)]; exact fun h0 => hn h0.symm),
    if_neg (fun hc => Nat.ne_of_lt h hc.1), if_pos h]
  rw [lock_after_erase root _ _ _ _ hne]

/-- The failing input of C10: with "ab" stored, `insert("ac", 2)` finds the
partial match `(root, "ab", 0, 1)` and runs into the null pointer. -/
theorem insert_split_null_witness :
    (_lookup (Node.mk (.cons [97, 98] (.mk .nil true 1) .nil) false 0) [97, 99]).i <
        (_lookup (Node.mk (.cons [97, 98] (.mk .nil true 1) .nil) false 0) [97, 99]).j ∧
      insert (Node.mk (.cons [97, 98] (.mk .nil true 1) .nil) false 0) [97, 99] 2 = none :=
  ⟨by decide, insert_split_null _ _ _ (by decide)⟩

/-! ## Where the code leaves the contract -/

/-- C1 (finite map): after `insert("bb", 1)` and `insert("cc", 2)` on the
empty trie the reference map binds "cc" to 2, but `lookup` stops at the
first entry "bb" of the root: `contains("cc")` is false, `find("cc")` throws
and `remove("cc")` returns false. -/
theorem second_sibling_not_found :
    run (new : Node Nat) [.insert [98, 98] 1, .insert [99, 99] 2] =
        some (.mk (.cons [98, 98] (.mk .nil true 1) (.cons [99, 99] (.mk .nil true 2) .nil))
          false 0) ∧
      RefMap.run [Op.insert [98, 98] 1, Op.insert [99, 99] 2] [99, 99] = some 2 ∧
      contains (Node.mk (.cons [98, 98] (.mk .nil true 1)
        (.cons [99, 99] (.mk .nil true 2) .nil)) false 0) [99, 99] = false ∧
      find (Node.mk (.cons [98, 98] (.mk .nil true 1)
        (.cons [99, 99] (.mk .nil true 2) .nil)) false 0) [99, 99] =
          .error "Key not found." ∧
      (remove (Node.mk (.cons [98, 98] (.mk .nil true 1)
        (.cons [99, 99] (.mk .nil true 2) .nil)) false 0) [99, 99]).1 = false :=
  ⟨rfl, by decide, by decide, rfl, by decide⟩

/-- C2 (round trip): on the empty trie `insert("a", 1)` takes the branch of
`res.i == res.j == n` (true equals 1) and marks the root, so `contains("a")`
is false and `find("a")` throws; `insert("", 1)` takes no branch at all and
`contains("")` stays false. -/
theorem insert_short_key_not_contained :
    insert (new : Node Nat) [97] 1 = some (.mk .nil true 1) ∧
      contains (Node.mk .nil true 1) [97] = false ∧
      find (Node.mk .nil true 1) [97] = .error "Key not found." ∧
      insert (new : Node Nat) [] 1 = some new ∧
      contains (new : Node Nat) [] = false :=
  ⟨rfl, by decide, rfl, rfl, by decide⟩

/-- C3 (update overwrite): with "ab" stored with value 1, `insert("ab", 2)`
reaches the node with `i == j == 2`, takes no branch (true is 1, not 2) and
leaves the trie as it was: `find("ab")` still returns 1. -/
theorem insert_again_keeps_old_value :
    insert (new : Node Nat) [97, 98] 1 =
        some (.mk (.cons [97, 98] (.mk .nil true 1) .nil) false 0) ∧
      insert (Node.mk (.cons [97, 98] (.mk .nil true 1) .nil) false 0) [97, 98] 2 =
        some (.mk (.cons [97, 98] (.mk .nil true 1) .nil) false 0) ∧
      find (Node.mk (.cons [97, 98] (.mk .nil true 1) .nil) false 0) [97, 98] = .ok 1 :=
  ⟨rfl, rfl, rfl⟩

/-- C4 (insert frame): with "bb" stored, `insert("aa", 2)` puts the entry "aa"
before "bb" in the root; `lookup` then stops at "aa" and `contains("bb")`
turns from true to false. -/
theorem insert_hides_sibling :
    contains (Node.mk (.cons [98, 98] (.mk .nil true 1) .nil) false 0) [98, 98] = true ∧
      insert (Node.mk (.cons [98, 98] (.mk .nil true 1) .nil) false 0) [97, 97] 2 =
        some (.mk (.cons [97, 97] (.mk .nil true 2) (.cons [98, 98] (.mk .nil true 1) .nil))
          false 0) ∧
      contains (Node.mk (.cons [97, 97] (.mk .nil true 2)
        (.cons [98, 98] (.mk .nil true 1) .nil)) false 0) [98, 98] = false :=
  ⟨by decide, rfl, by decide⟩

/-- C5 (removal takes effect): the calls `insert("bb", 0)`, `insert("cdx", 1)`,
`insert("cd", 2)`, `remove("bb")`, `insert("cdx", 3)`, `remove("cd")` store "cdx"
twice, under "cd" then "x" and under the entry "cdx" of the root.  Then
`contains("cdx")` is true, `remove("cdx")` returns true and prunes the first
copy, and `contains("cdx")` is still true, with the older value 1. -/
theorem remove_leaves_second_copy :
    run (new : Node Nat) [.insert [98, 98] 0, .insert [99, 100, 120] 1, .insert [99, 100] 2,
        .remove [98, 98], .insert [99, 100, 120] 3, .remove [99, 100]] =
        some (.mk (.cons [99, 100] (.mk (.cons [120] (.mk .nil true 3) .nil) false 2)
          (.cons [99, 100, 120] (.mk .nil true 1) .nil)) false 0) ∧
      contains (Node.mk (.cons [99, 100] (.mk (.cons [120] (.mk .nil true 3) .nil) false 2)
          (.cons [99, 100, 120] (.mk .nil true 1) .nil)) false 0) [99, 100, 120] = true ∧
      remove (Node.mk (.cons [99, 100] (.mk (.cons [120] (.mk .nil true 3) .nil) false 2)
          (.cons [99, 100, 120] (.mk .nil true 1) .nil)) false 0) [99, 100, 120] =
        (true, .mk (.cons [99, 100, 120] (.mk .nil true 1) .nil) false 0) ∧
      contains (Node.mk (.cons [99, 100, 120] (.mk .nil true 1) .nil) false 0)
        [99, 100, 120] = true ∧
      find (Node.mk (.cons [99, 100, 120] (.mk .nil true 1) .nil) false 0)
        [99, 100, 120] = .ok 1 :=
  ⟨rfl, by decide, rfl, by decide, rfl⟩

/-! ## Copies -/

/-- C9 as stated fails: `A` holds "hi"; after the copy `B` is made,
`A.remove("hi")` returns true and `B.contains("hi")` is false. -/
theorem copy_sees_removal :
    Object.insert (Object.make ([] : Memory Nat)).2 (Object.make ([] : Memory Nat)).1
        [104, 105] 7 = some [.mk (.cons [104, 105] (.mk .nil true 7) .nil) false 0] ∧
      Object.contains [Node.mk (.cons [104, 105] (.mk .nil true 7) .nil) false 0]
        (Object.copy (Object.make ([] : Memory Nat)).1) [104, 105] = some true ∧
      Object.remove [Node.mk (.cons [104, 105] (.mk .nil true 7) .nil) false 0]
        (Object.make ([] : Memory Nat)).1 [104, 105] = some (true, [.mk .nil false 0]) ∧
      Object.contains [Node.mk .nil false 0]
        (Object.copy (Object.make ([] : Memory Nat)).1) [104, 105] = some false :=
  ⟨rfl, by decide, rfl, by decide⟩

theorem Memory.get_set (m : Memory V) (a : Nat) (root r : Node V) (h : m[a]? = some root) :
    (m.set a r)[a]? = some r := by
  have hlt : a < m.length := by
    rcases Nat.lt_or_ge a m.length with hlt | hge
    · exact hlt
    · rw [List.getElem?_eq_none hge] at h
      cases h
  simp [List.getElem?_set, hlt]

/-- C9 as amended: a copy holds the address of the same root node.  What
`remove` or `insert` does through either object is what `contains` and `find`
report through the other. -/
theorem copy_shares_root [Inhabited V] (m : Memory V) (a : Object) (root : Node V)
    (h : m[a.root]? = some root) (k k1 : Edge) (v : V) :
    (Object.copy a).root = a.root ∧
      (∃ m1, Object.remove m a k = some ((remove root k).1, m1) ∧
        Object.contains m1 (Object.copy a) k1 = some (contains (remove root k).2 k1) ∧
        Object.find m1 (Object.copy a) k1 = some (find (remove root k).2 k1)) ∧
      (∃ m1, Object.remove m (Object.copy a) k = some ((remove root k).1, m1) ∧
        Object.contains m1 a k1 = some (contains (remove root k).2 k1) ∧
        Object.find m1 a k1 = some (find (remove root k).2 k1)) ∧
      (∀ root1, insert root k v = some root1 →
        ∃ m1, Object.insert m (Object.copy a) k v = some m1 ∧
          Object.contains m1 a k1 = some (contains root1 k1) ∧
          Object.find m1 a k1 = some (find root1 k1)) := by
  have hset := fun r => Memory.get_set m a.root root r h
  refine ⟨rfl, ⟨m.set a.root (remove root k).2, ?_, ?_, ?_⟩,
    ⟨m.set a.root (remove root k).2, ?_, ?_, ?_⟩, ?_⟩
  · simp only [Object.remove, h, Option.map_some']
  · simp only [Object.contains, Object.copy, hset, Option.map_some']
  · simp only [Object.find, Object.copy, hset, Option.map_some']
  · simp only [Object.remove, Object.copy, h, Option.map_some']
  · simp only [Object.contains, hset, Option.map_some']
  · simp only [Object.find, hset, Option.map_some']
  · intro root1 hins
    refine ⟨m.set a.root root1, ?_, ?_, ?_⟩
    · simp only [Object.insert, Object.copy, h, hins]
    · simp only [Object.contains, hset, Option.map_some']
    · simp only [Object.find, hset, Option.map_some']

/-- The test of the spec for C9 on the shared root: after the copy,
`remove("hi")` through `A` makes `contains("hi")` through the copy false. -/
theorem copy_shares_root_witness :
    ([Node.mk (.cons [104, 105] (.mk .nil true 7) .nil) false 0] : Memory Nat)[0]? =
        some (.mk (.cons [104, 105] (.mk .nil true 7) .nil) false 0) ∧
      ∃ m1, Object.remove [Node.mk (.cons [104, 105] (.mk .nil true 7) .nil) false 0] ⟨0⟩
          [104, 105] =
          some ((remove (Node.mk (.cons [104, 105] (.mk .nil true 7) .nil) false 0)
            [104, 105]).1, m1) ∧
        Object.contains m1 (Object.copy ⟨0⟩) [104, 105] =
          some (contains (remove (Node.mk (.cons [104, 105] (.mk .nil true 7) .nil) false 0)
            [104, 105]).2 [104, 105]) ∧
        Object.find m1 (Object.copy ⟨0⟩) [104, 105] =
          some (find (remove (Node.mk (.cons [104, 105] (.mk .nil true 7) .nil) false 0)
            [104, 105]).2 [104, 105]) :=
  ⟨rfl, (copy_shares_root [Node.mk (.cons [104, 105] (.mk .nil true 7) .nil) false 0] ⟨0⟩
    (.mk (.cons [104, 105] (.mk .nil true 7) .nil) false 0) rfl [104, 105] [104, 105] 0).2.1⟩

/-! ## The result of the prefix match -/

/-- With fuel for every byte of `s1`, the loop ends because its condition
fails, not because the fuel is used up. -/
theorem lcpLoop_exit (s1 s2 : Edge) (start end_ : Nat) (fuel i : Nat)
    (h : s1.length ≤ fuel + i) :
    ¬ (start + lcpLoop s1 s2 start end_ fuel i < end_ ∧
        lcpLoop s1 s2 start end_ fuel i < s1.length ∧
        s1.getD (lcpLoop s1 s2 start end_ fuel i) 0 =
          s2.getD (start + lcpLoop s1 s2 start end_ fuel i) 0) := by
  induction fuel generalizing i with
  | zero =>
    simp only [lcpLoop]
    omega
  | succ fuel ih =>
    unfold lcpLoop
    split
    · exact ih (i + 1) (by omega)
    · next hc => exact hc

/-- The bytes matched: the first `d` bytes of `s1` are the `d` bytes of `s2`
from `start`, and they end before `end_`. -/
theorem longest_common_prefix_match (s1 s2 : Edge) (start end_ : Nat)
    (hse : start ≤ end_) (hend : end_ ≤ s2.length) :
    start + longest_common_prefix s1 s2 start end_ ≤ end_ ∧
      s1.take ( longest_common_prefix s1 s2 start end_) =
        (s2.drop start).take ( longest_common_prefix s1 s2 start end_) := by
  have hle := longest_common_prefix_le s1 s2 start end_
  have key : ∀ t, t < longest_common_prefix s1 s2 start end_ →
      start + t < end_ ∧ t < s1.length ∧ s1.getD t 0 = s2.getD (start + t) 0 :=
    fun t ht => lcpLoop_matched s1 s2 start end_ s1.length 0 t (Nat.zero_le _) ht
  have hlen : start + longest_common_prefix s1 s2 start end_ ≤ end_ := by
    rcases Nat.eq_zero_or_pos ( longest_common_prefix s1 s2 start end_) with h0 | hpos
    · omega
    · have := (key ( longest_common_prefix s1 s2 start end_ - 1) (by omega)).1
      omega
  refine ⟨hlen, ?_⟩
  apply List.ext_getElem
  · simp; omega
  · intro t h1 h2
    simp only [List.length_take] at h1
    have ht : t < longest_common_prefix s1 s2 start end_ := by omega
    have hk := (key t ht).2.2
    have ht1 : t < s1.length := by omega
    have ht2 : start + t < s2.length := by omega
    rw [List.getD_eq_getElem _ _ ht1, List.getD_eq_getElem _ _ ht2] at hk
    simp [hk]

/-- C16: for `start ≤ end ≤ len(b)`, `longest_common_prefix(a, b, start, end)`
returns a `d` with `d ≤ len(a)`, `start + d ≤ end` and
`a[0, d) == b[start, start + d)`; at `d` the match cannot go on (`d == len(a)`,
or `start + d == end`, or `a[d] != b[start + d]`); and every `d1` with the three
properties is at most `d`. -/
theorem longest_common_prefix_largest (a b : Edge) (start end_ : Nat)
    (hse : start ≤ end_) (hend : end_ ≤ b.length) :
    ( longest_common_prefix a b start end_ ≤ a.length ∧
      start + longest_common_prefix a b start end_ ≤ end_ ∧
      a.take ( longest_common_prefix a b start end_) =
        (b.drop start).take ( longest_common_prefix a b start end_)) ∧
    ( longest_common_prefix a b start end_ = a.length ∨
      start + longest_common_prefix a b start end_ = end_ ∨
      a[ longest_common_prefix a b start end_]? ≠
        b[start + longest_common_prefix a b start end_]?) ∧
    ∀ d1, d1 ≤ a.length → start + d1 ≤ end_ → a.take d1 = (b.drop start).take d1 →
      d1 ≤ longest_common_prefix a b start end_ := by
  have hle := longest_common_prefix_le a b start end_
  obtain ⟨hlen, htake⟩ := longest_common_prefix_match a b start end_ hse hend
  have hexit : ¬ (start + longest_common_prefix a b start end_ < end_ ∧
      longest_common_prefix a b start end_ < a.length ∧
      a.getD ( longest_common_prefix a b start end_) 0 =
        b.getD (start + longest_common_prefix a b start end_) 0) :=
    lcpLoop_exit a b start end_ a.length 0 (Nat.le_refl _)
  refine ⟨⟨hle, hlen, htake⟩, ?_, ?_⟩
  · by_cases h1 : longest_common_prefix a b start end_ = a.length
    · exact Or.inl h1
    by_cases h2 : start + longest_common_prefix a b start end_ = end_
    · exact Or.inr (Or.inl h2)
    right; right
    intro heq
    apply hexit
    refine ⟨by omega, by omega, ?_⟩
    simp only [List.getD_eq_getElem?_getD, heq]
  · intro d1 hd1 hd2 hd3
    by_contra hlt
    apply hexit
    have hd : longest_common_prefix a b start end_ < d1 := by omega
    refine ⟨by omega, by omega, ?_⟩
    have := congrArg (fun l => l[ longest_common_prefix a b start end_]?) hd3
    simp only [List.getElem?_take, hd, if_true, List.getElem?_drop] at this
    simp only [List.getD_eq_getElem?_getD, this]

/-- An edge "car" met in "xcart" from 1 to 5 matches three bytes. -/
theorem longest_common_prefix_largest_witness :
    longest_common_prefix [99, 97, 114] [120, 99, 97, 114, 116] 1 5 = 3 ∧
      ∀ d1, d1 ≤ 3 → 1 + d1 ≤ 5 →
        List.take d1 [99, 97, 114] = (List.drop 1 [120, 99, 97, 114, 116]).take d1 →
        d1 ≤ longest_common_prefix [99, 97, 114] [120, 99, 97, 114, 116] 1 5 :=
  ⟨by decide,
    (longest_common_prefix_largest [99, 97, 114] [120, 99, 97, 114, 116] 1 5 (by decide)
      (by decide)).2.2⟩

/-! ## The result of the descent -/

/-- C14: for `0 ≤ start ≤ end ≤ len(s)`, `lookup(r, s, start, end)` returns
`(node, edge, i, j)` where `node` is `r` or a descendant of `r`, `edge` is empty
or the label of a child of `node`, `start ≤ i ≤ j ≤ end` and
`s[i, j) == edge[0, j - i)`; when `start == end` the result is
`(r, "", start, end)`.  The function is total: the descent follows the tree. -/
theorem lookup_postcondition (s : Edge) (end_ : Nat) (hend : end_ ≤ s.length) (r : Node V) :
    ∀ start : Nat, start ≤ end_ →
      (∃ nd, r.get? (lookup r s start end_).node = some nd ∧
        ((lookup r s start end_).edge = [] ∨
          (nd.get_child (lookup r s start end_).edge).isSome = true)) ∧
      start ≤ (lookup r s start end_).i ∧
      (lookup r s start end_).i ≤ (lookup r s start end_).j ∧
      (lookup r s start end_).j ≤ end_ ∧
      (s.drop (lookup r s start end_).i).take
          ((lookup r s start end_).j - (lookup r s start end_).i) =
        (lookup r s start end_).edge.take
          ((lookup r s start end_).j - (lookup r s start end_).i) ∧
      (start = end_ → lookup r s start end_ = ⟨[], [], start, end_⟩) := by
  induction r using Node.first_child_induction with
  | leaf endpoint x =>
    intro start hse
    rw [lookup_leaf]
    split
    · next h => subst h; exact ⟨⟨_, rfl, Or.inl rfl⟩, by simp⟩
    · next h =>
      exact ⟨⟨_, rfl, Or.inl rfl⟩, Nat.le_refl _, Nat.le_refl _, hse, by simp,
        fun h1 => absurd h1 h⟩
  | step e c rest endpoint x ih =>
    intro start hse
    rw [lookup_cons]
    by_cases h1 : start = end_
    · rw [if_pos h1]; subst h1; exact ⟨⟨_, rfl, Or.inl rfl⟩, by simp⟩
    rw [if_neg h1]
    obtain ⟨hlen, htake⟩ := longest_common_prefix_match e s start end_ hse hend
    by_cases h2 : longest_common_prefix e s start end_ < e.length
    · rw [if_pos h2]
      refine ⟨⟨_, rfl, Or.inr ?_⟩, Nat.le_refl _, Nat.le_add_right _ _, hlen, ?_,
        fun h => absurd h h1⟩
      · simp [Node.get_child, Node.get_edges, Edges.find]
      · simp only [Nat.add_sub_cancel_left]
        exact htake.symm
    rw [if_neg h2]
    have hfull : longest_common_prefix e s start end_ = e.length :=
      Nat.le_antisymm (longest_common_prefix_le e s start end_) (Nat.le_of_not_lt h2)
    rw [hfull] at hlen
    obtain ⟨⟨nd, hnd, hedge⟩, hi, hij, hj, hs, _⟩ := ih (start + e.length) hlen
    refine ⟨⟨nd, ?_, hedge⟩, Nat.le_trans (Nat.le_add_right _ _) hi, hij, hj, hs,
      fun h => absurd h h1⟩
    rw [Node.get?_first]
    exact hnd

/-- The descent for "cab" in the trie of "car" and "cart" stops inside the
edge "car" after two bytes. -/
theorem lookup_postcondition_witness :
    lookup carTrie [99, 97, 98] 0 3 = ⟨[], [99, 97, 114], 0, 2⟩ ∧
      ([99, 97, 98].drop (lookup carTrie [99, 97, 98] 0 3).i).take
          ((lookup carTrie [99, 97, 98] 0 3).j - (lookup carTrie [99, 97, 98] 0 3).i) =
        (lookup carTrie [99, 97, 98] 0 3).edge.take
          ((lookup carTrie [99, 97, 98] 0 3).j - (lookup carTrie [99, 97, 98] 0 3).i) :=
  ⟨by decide,
    (lookup_postcondition [99, 97, 98] 3 (by decide) carTrie 0 (by decide)).2.2.2.2.1⟩

/-! ## The branches of `insert` -/

theorem slice_to_end (s : Edge) (start : Nat) : slice s start (-1) = s.drop start := by
  simp [slice]

theorem int_of_size_eq (size : Nat) (h : size < 2 ^ 31) : int_of_size size = (size : Int) := by
  unfold int_of_size
  norm_num at h
  omega

/-- C20 as stated fails at two inputs.  A key of 2^31 bytes has `n == -2^31`
in `int n = string.size()`: on the empty trie, where `lookup` returns
`i == j == 0 < len(key)`, none of the tests of `insert` holds and no leaf is
appended.  And in the trie of "car" and "cart", `insert("cab", 9)` gets
`(root, "car", 0, 2)`, takes the split branch and yields no trie. -/
theorem insert_branch_rule_fails :
    int_of_size (List.replicate (2 ^ 31) 0).length = -2147483648 ∧
      insert_branch 0 0 (int_of_size (List.replicate (2 ^ 31) 0).length) = Branch.nothing ∧
      _lookup carTrie [99, 97, 98] = ⟨[], [99, 97, 114], 0, 2⟩ ∧
      insert_branch 0 2 (int_of_size [99, 97, 98].length) = Branch.split ∧
      insert carTrie [99, 97, 98] 9 = none := by
  rw [List.length_replicate]
  exact ⟨by decide, by decide, by decide, by decide, rfl⟩

/-- C20 as amended: for a key shorter than 2^31 bytes, where `int n` is the
length `n` of the key, and with `(node, edge, i, j)` the result of `lookup`:
`insert` writes the flag and the value of `node` and makes no node when
`i == j` and `n == 1`, or `i != j` and `n == 0`; otherwise it appends a leaf
under `key[i, n)` when `i == j < n` and changes nothing when `i == j == n`.
So `insert("", v)` changes nothing, and neither does an insert of a key of two
bytes or more that `lookup` consumes in full.  (The case `i < j` is left to
C10.) -/
theorem insert_branches [Inhabited V] (root : Node V) (string : Edge) (value : V)
    (hlen : string.length < 2 ^ 31) :
    int_of_size string.length = (string.length : Int) ∧
    ((((_lookup root string).i = (_lookup root string).j ∧ string.length = 1) ∨
        ((_lookup root string).i ≠ (_lookup root string).j ∧ string.length = 0)) →
      insert_branch (_lookup root string).i (_lookup root string).j
          (int_of_size string.length) = Branch.found_node ∧
        insert root string value =
          some (root.modifyAt (_lookup root string).node
            fun nd => (nd.set_endpoint true).set_value value)) ∧
    (¬ (((_lookup root string).i = (_lookup root string).j ∧ string.length = 1) ∨
        ((_lookup root string).i ≠ (_lookup root string).j ∧ string.length = 0)) →
      ((_lookup root string).i = (_lookup root string).j →
        (_lookup root string).j < string.length →
        insert_branch (_lookup root string).i (_lookup root string).j
            (int_of_size string.length) = Branch.new_leaf ∧
          insert root string value =
            some (root.modifyAt (_lookup root string).node fun nd =>
              nd.add_edge (string.drop (_lookup root string).i) (.mk .nil true value))) ∧
      ((_lookup root string).i = (_lookup root string).j →
        (_lookup root string).j = string.length →
        insert_branch (_lookup root string).i (_lookup root string).j
            (int_of_size string.length) = Branch.nothing ∧
          insert root string value = some root)) ∧
    insert root [] value = some root ∧
    (2 ≤ string.length → (_lookup root string).i = (_lookup root string).j →
      (_lookup root string).j = string.length → insert root string value = some root) := by
  have hn := int_of_size_eq string.length hlen
  have hcond : ((if (_lookup root string).i = (_lookup root string).j then 1 else 0) =
      string.length) ↔
      (((_lookup root string).i = (_lookup root string).j ∧ string.length = 1) ∨
        ((_lookup root string).i ≠ (_lookup root string).j ∧ string.length = 0)) := by
    by_cases h : (_lookup root string).i = (_lookup root string).j
    · simp only [h, if_true, ne_eq, not_true, false_and, or_false, true_and]
      exact ⟨fun h1 => h1.symm, fun h1 => h1.symm⟩
    · simp only [h, if_false, ne_eq, not_false_eq_true, false_and, false_or, true_and]
      exact ⟨fun h1 => h1.symm, fun h1 => h1.symm⟩
  have hcondInt : ((if ((_lookup root string).i : Int) = ((_lookup root string).j : Int)
      then (1 : Int) else 0) = (string.length : Int)) ↔
      (((_lookup root string).i = (_lookup root string).j ∧ string.length = 1) ∨
        ((_lookup root string).i ≠ (_lookup root string).j ∧ string.length = 0)) := by
    by_cases h : (_lookup root string).i = (_lookup root string).j
    · have h1 : ((_lookup root string).i : Int) = ((_lookup root string).j : Int) := by
        rw [h]
      rw [if_pos h1]
      constructor
      · intro h2; left; exact ⟨h, by omega⟩
      · rintro (⟨_, h2⟩ | ⟨h2, _⟩)
        · omega
        · exact absurd h h2
    · have h1 : ¬ ((_lookup root string).i : Int) = ((_lookup root string).j : Int) := by
        omega
      rw [if_neg h1]
      constructor
      · intro h2; right; exact ⟨h, by omega⟩
      · rintro (⟨h2, _⟩ | ⟨_, h2⟩)
        · exact absurd h2 h
        · omega
  refine ⟨hn, ?_, ?_, ?_, ?_⟩
  · intro h
    refine ⟨?_, ?_⟩
    · unfold insert_branch
      rw [hn, if_pos (hcondInt.2 h)]
    · unfold insert
      simp only
      rw [if_pos (hcond.2 h)]
  · intro h
    refine ⟨?_, ?_⟩
    · intro hij hj
      refine ⟨?_, ?_⟩
      · unfold insert_branch
        rw [hn, if_neg (fun hc => h (hcondInt.1 hc)), if_pos ⟨by rw [hij], by omega⟩]
      · unfold insert
        simp only
        rw [if_neg (fun hc => h (hcond.1 hc)), if_pos ⟨hij, hj⟩, slice_to_end]
        rfl
    · intro hij hj
      refine ⟨?_, ?_⟩
      · unfold insert_branch
        rw [hn, if_neg (fun hc => h (hcondInt.1 hc)), if_neg (fun hc => by omega),
          if_neg (by omega)]
      · unfold insert
        simp only
        rw [if_neg (fun hc => h (hcond.1 hc)), if_neg (fun hc => by omega),
          if_neg (by omega)]
  · unfold insert _lookup
    simp [lookup_of_eq]
  · intro h2 hij hj
    unfold insert
    simp only
    rw [if_neg (by rw [if_pos hij]; omega), if_neg (fun hc => by omega), if_neg (by omega)]

/-- In the trie of "car" and "cart", `insert("car", 9)` is consumed in full
at the node of "car" and changes nothing: the value stays 1. -/
theorem insert_branches_witness :
    [99, 97, 114].length < 2 ^ 31 ∧ 2 ≤ [99, 97, 114].length ∧
      (_lookup carTrie [99, 97, 114]).i = (_lookup carTrie [99, 97, 114]).j ∧
      (_lookup carTrie [99, 97, 114]).j = [99, 97, 114].length ∧
      insert carTrie [99, 97, 114] 9 = some carTrie :=
  ⟨by decide, by decide, by decide, by decide,
    (insert_branches carTrie [99, 97, 114] 9 (by decide)).2.2.2.2 (by decide) (by decide)
      (by decide)⟩

/-! ## Removal at a node that has children -/

theorem Edges.labels_replace (edges : Edges V) (e : Edge) (c : Node V) :
    (edges.replace e c).labels = edges.labels := by
  induction edges using Edges.entries_induction with
  | nil => rfl
  | cons e1 c1 rest ih =>
    simp only [Edges.replace]
    split
    · rfl
    · simp [Edges.labels, ih]

theorem Edges.find_replace_ne (edges : Edges V) (e e1 : Edge) (c : Node V) (hne : e1 ≠ e) :
    (edges.replace e c).find e1 = edges.find e1 := by
  induction edges using Edges.entries_induction with
  | nil => rfl
  | cons e2 c2 rest ih =>
    simp only [Edges.replace]
    by_cases h : e2 = e
    · subst h
      have h2 : ¬ e2 = e1 := fun h3 => hne h3.symm
      simp [Edges.find, h2]
    · simp only [h, if_false, Edges.find, ih]

/-- A write through `p` that keeps the map of children and the value, seen
node by node: every place holds a node as before, with the same labels and
value, and with the same flag except at `p`. -/
theorem Node.get?_modifyAt_info (f : Node V → Node V)
    (hf : ∀ m, (f m).get_edges = m.get_edges ∧ (f m).value = m.value) (p : NodePtr) :
    ∀ (root : Node V) (q : NodePtr),
      ((root.modifyAt p f).get? q).map (fun m => (m.labels, m.is_endpoint, m.value)) =
        (root.get? q).map (fun m =>
          (m.labels, (if q = p then (f m).is_endpoint else m.is_endpoint), m.value)) := by
  induction p with
  | nil =>
    intro root q
    rw [Node.modifyAt_nil]
    cases q with
    | nil => simp [Node.get?_nil, Node.labels, (hf root).1, (hf root).2]
    | cons e1 q1 => rw [Node.get?_congr _ _ (hf root).1]; simp
  | cons e p ih =>
    intro root q
    cases root with
    | mk edges endpoint x =>
      simp only [Node.modifyAt]
      cases hfind : edges.find e with
      | none =>
        simp only
        cases q with
        | nil => simp [Node.get?_nil]
        | cons e1 q1 =>
          by_cases he : e1 = e
          · subst he; simp [Node.get?, hfind]
          · simp [he]
      | some c =>
        simp only
        cases q with
        | nil =>
          simp [Node.get?_nil, Node.labels, Node.get_edges, Edges.labels_replace,
            Node.is_endpoint, Node.value]
        | cons e1 q1 =>
          simp only [Node.get?]
          by_cases he : e1 = e
          · subst he
            rw [Edges.find_replace edges e1 _ (by simp [hfind]), hfind]
            simp only [List.cons.injEq, true_and]
            exact ih c q1
          · rw [Edges.find_replace_ne edges e e1 _ he]
            simp [he]

/-- C17: when `contains(k)` is true and the node located has a child,
`remove(k)` returns true and only clears the endpoint flag of that node: at
every place the trie holds a node as before, with the same edge labels, the
same value and, except at the node located, the same flag.  No node is
detached and no label is changed or merged. -/
theorem remove_with_child (root : Node V) (k : Edge) (nd : Node V)
    (h : contains root k = true) (hnd : root.get? (_lookup root k).node = some nd)
    (hc : nd.empty = false) :
    remove root k =
        (true, root.modifyAt (_lookup root k).node fun m => m.set_endpoint false) ∧
      ∀ q : NodePtr,
        ((remove root k).2.get? q).map (fun m => (m.labels, m.is_endpoint, m.value)) =
          (root.get? q).map (fun m =>
            (m.labels, (if q = (_lookup root k).node then false else m.is_endpoint),
              m.value)) := by
  obtain ⟨p, e, nd1, hl, hg, hend⟩ := lookup_of_contains root k h
  have hfn := (find_of_lookup root k p e nd1 hl hg hend).1
  have hp : (_lookup root k).node = p := by simp [_lookup, hl]
  rw [hp] at hnd ⊢
  have hne : (nd.set_endpoint false).empty = false := by
    cases nd; exact hc
  have hcompact := compact_of_not_empty (root.modifyAt p fun m => m.set_endpoint false)
    p.reverse (nd.set_endpoint false)
    (by rw [List.reverse_reverse, Node.get?_modifyAt, hnd]; rfl) hne
  have hrem : remove root k = (true, root.modifyAt p fun m => m.set_endpoint false) := by
    simp [remove, hfn, hcompact]
  refine ⟨hrem, ?_⟩
  intro q
  rw [hrem]
  simp only
  rw [Node.get?_modifyAt_info (fun m => m.set_endpoint false)
    (fun m => by cases m; exact ⟨rfl, rfl⟩) p root q]
  congr 1
  funext m
  cases m
  rfl

/-- In the trie of "car" and "cart", `remove("car")` clears the flag of the
node of "car" and keeps its child "t". -/
theorem remove_with_child_witness :
    contains carTrie [99, 97, 114] = true ∧
      remove carTrie [99, 97, 114] =
        (true, carTrie.modifyAt (_lookup carTrie [99, 97, 114]).node
          fun m => m.set_endpoint false) ∧
      (remove carTrie [99, 97, 114]).2 =
        .mk (.cons [99, 97, 114] (.mk (.cons [116] (.mk .nil true 2) .nil) false 1) .nil)
          false 0 :=
  ⟨by decide,
    (remove_with_child carTrie [99, 97, 114]
      (.mk (.cons [116] (.mk .nil true 2) .nil) true 1) (by decide) rfl rfl).1, rfl⟩

/-! ## The smallest child decides -/

/-- The split branch never returns a trie (the helper behind C10 and the
invariants). -/
theorem insert_split_eq_none [Inhabited V] (root : Node V) (string : Edge) (value : V)
    (h : (_lookup root string).i < (_lookup root string).j) :
    insert_split root (_lookup root string) string value = none := by
  have hd : (_lookup root string).j - (_lookup root string).i <
      (_lookup root string).edge.length := lookup_split_bound string string.length root 0 h
  have hne : slice (_lookup root string).edge 0
      (((_lookup root string).j - (_lookup root string).i : Nat) : Int) ≠
      (_lookup root string).edge := by
    intro heq
    have hlen := congrArg List.length heq
    rw [slice_zero_nat, List.length_take] at hlen
    omega
  unfold insert_split
  simp only
  rw [lock_after_erase root _ _ _ _ hne]

/-- A call of `insert` that returns has written the flag and value of the
node reached, or has appended a leaf under the rest of the key, or has done
nothing. -/
theorem insert_cases [Inhabited V] (root : Node V) (string : Edge) (value : V) (t : Node V)
    (h : insert root string value = some t) :
    t = root.modifyAt (_lookup root string).node
        (fun nd => (nd.set_endpoint true).set_value value) ∨
      ((_lookup root string).i < string.length ∧
        t = root.modifyAt (_lookup root string).node
          (fun nd => nd.add_edge (string.drop (_lookup root string).i)
            (.mk .nil true value))) ∨
      t = root := by
  unfold insert at h
  simp only at h
  by_cases hc : (if (_lookup root string).i = (_lookup root string).j then 1 else 0) =
      string.length
  · rw [if_pos hc] at h
    left; exact (Option.some.inj h).symm
  rw [if_neg hc] at h
  by_cases h2 : (_lookup root string).i = (_lookup root string).j ∧
      (_lookup root string).j < string.length
  · rw [if_pos h2] at h
    right; left
    refine ⟨by omega, ?_⟩
    rw [slice_to_end] at h
    exact (Option.some.inj h).symm
  rw [if_neg h2] at h
  by_cases h3 : (_lookup root string).i < (_lookup root string).j
  · rw [if_pos h3] at h
    have := insert_split_eq_none root string value h3
    unfold insert_split at this
    simp only at this
    rw [this] at h
    cases h
  · rw [if_neg h3] at h
    right; right; exact (Option.some.inj h).symm

/-! ## Properties of every edge -/

theorem Edges.every_find (P : Edge → Node V → Bool) (edges : Edges V) (e : Edge) (c : Node V)
    (h : edges.every P = true) (hf : edges.find e = some c) :
    P e c = true ∧ c.every P = true := by
  induction edges using Edges.entries_induction with
  | nil => simp [Edges.find] at hf
  | cons e1 c1 rest ih =>
    simp only [Edges.every, Bool.and_eq_true] at h
    simp only [Edges.find] at hf
    by_cases he : e1 = e
    · subst he
      rw [if_pos rfl] at hf
      cases hf
      exact ⟨h.1.1, h.1.2⟩
    · rw [if_neg he] at hf
      exact ih h.2 hf

theorem Edges.every_replace (P : Edge → Node V → Bool) (edges : Edges V) (e : Edge)
    (c : Node V) (h : edges.every P = true) (hP : P e c = true) (hc : c.every P = true) :
    (edges.replace e c).every P = true := by
  induction edges using Edges.entries_induction with
  | nil => rfl
  | cons e1 c1 rest ih =>
    simp only [Edges.every, Bool.and_eq_true] at h
    simp only [Edges.replace]
    by_cases he : e1 = e
    · subst he
      simp [Edges.every, hP, hc, h.2]
    · simp [he, Edges.every, h.1.1, h.1.2, ih h.2]

theorem Edges.every_erase_child (P : Edge → Node V → Bool) (edges : Edges V) (e : Edge)
    (h : edges.every P = true) : (edges.erase_child e).every P = true := by
  induction edges using Edges.entries_induction with
  | nil => rfl
  | cons e1 c1 rest ih =>
    simp only [Edges.every, Bool.and_eq_true] at h
    simp only [Edges.erase_child]
    by_cases he : e1 = e
    · simp [he, h.2]
    · simp [he, Edges.every, h.1.1, h.1.2, ih h.2]

theorem Edges.every_assign (P : Edge → Node V → Bool) (edges : Edges V) (e : Edge)
    (c : Node V) (h : edges.every P = true) (hP : P e c = true) (hc : c.every P = true) :
    (edges.assign e c).every P = true := by
  induction edges using Edges.entries_induction with
  | nil => simp [Edges.assign, Edges.every, hP, hc]
  | cons e1 c1 rest ih =>
    simp only [Edges.every, Bool.and_eq_true] at h
    simp only [Edges.assign]
    by_cases he : e1 = e
    · subst he
      simp [Edges.every, hP, hc, h.2]
    · rw [if_neg he]
      cases hlt : strLess e e1
      · simp [Edges.every, h.1.1, h.1.2, ih h.2]
      · simp [Edges.every, hP, hc, h.1.1, h.1.2, h.2]

theorem Edges.empty_replace (edges : Edges V) (e : Edge) (c : Node V) :
    (edges.replace e c).empty = edges.empty := by
  cases edges with
  | nil => rfl
  | cons e1 c1 rest =>
    simp only [Edges.replace]
    split <;> rfl

theorem Edges.empty_assign (edges : Edges V) (e : Edge) (c : Node V) :
    (edges.assign e c).empty = false := by
  cases edges with
  | nil => rfl
  | cons e1 c1 rest =>
    simp only [Edges.assign]
    split
    · rfl
    · split <;> rfl

/-- A write below a node leaves the node a node with or without children, as
it was. -/
theorem Node.modifyAt_empty (n : Node V) (e : Edge) (r : NodePtr) (f : Node V → Node V) :
    (n.modifyAt (e :: r) f).empty = n.empty := by
  cases n with
  | mk edges endpoint x =>
    simp only [Node.modifyAt]
    split
    · simp [Node.empty, Node.get_edges, Edges.empty_replace]
    · rfl

/-- A property of an edge that only looks at the flag of the child and at
whether it has children survives a write somewhere in the trie, when the
write itself keeps it. -/
theorem Node.modifyAt_keeps (P : Edge → Node V → Bool)
    (hP : ∀ e c c1, c1.is_endpoint = c.is_endpoint → c1.empty = c.empty → P e c1 = P e c)
    (f : Node V → Node V) (hf : ∀ e n, P e n = true → P e (f n) = true)
    (p : NodePtr) (n : Node V) (e : Edge) (h : P e n = true) :
    P e (n.modifyAt p f) = true := by
  cases p with
  | nil => rw [Node.modifyAt_nil]; exact hf e n h
  | cons e1 r =>
    rw [hP e n _ (Node.modifyAt_flags n (e1 :: r) f (fun h0 => by cases h0)).1
      (Node.modifyAt_empty n e1 r f)]
    exact h

theorem Node.modifyAt_every (P : Edge → Node V → Bool)
    (hP : ∀ e c c1, c1.is_endpoint = c.is_endpoint → c1.empty = c.empty → P e c1 = P e c)
    (f : Node V → Node V) (hf1 : ∀ n, n.every P = true → (f n).every P = true)
    (hf2 : ∀ e n, P e n = true → P e (f n) = true) (p : NodePtr) :
    ∀ n : Node V, n.every P = true → (n.modifyAt p f).every P = true := by
  induction p with
  | nil => intro n h; rw [Node.modifyAt_nil]; exact hf1 n h
  | cons e p ih =>
    intro n h
    cases n with
    | mk edges endpoint x =>
      simp only [Node.modifyAt]
      cases hfind : edges.find e with
      | none => exact h
      | some c =>
        simp only [Node.every] at h ⊢
        obtain ⟨h1, h2⟩ := Edges.every_find P edges e c h hfind
        exact Edges.every_replace P edges e _ h
          (Node.modifyAt_keeps P hP f hf2 p c e h1) (ih c h2)

/-- A property of every edge that follows from another one. -/
theorem Node.every_mono (P Q : Edge → Node V → Bool)
    (hPQ : ∀ e c, P e c = true → Q e c = true) (n : Node V) :
    n.every P = true → n.every Q = true := by
  exact Node.rec (motive_1 := fun n => n.every P = true → n.every Q = true)
    (motive_2 := fun es => es.every P = true → es.every Q = true)
    (fun edges _ _ h => by simpa [Node.every] using h)
    (fun _ => rfl)
    (fun e c rest hc hrest h => by
      simp only [Edges.every, Bool.and_eq_true] at h ⊢
      exact ⟨⟨hPQ e c h.1.1, hc h.1.2⟩, hrest h.2⟩)
    n

/-! ## The loop of `remove`, seen from the parent -/

theorem Edges.replace_self (edges : Edges V) (e : Edge) (c : Node V)
    (h : edges.find e = some c) : edges.replace e c = edges := by
  induction edges using Edges.entries_induction with
  | nil => rfl
  | cons e1 c1 rest ih =>
    simp only [Edges.find] at h
    simp only [Edges.replace]
    by_cases he : e1 = e
    · rw [if_pos he] at h ⊢
      cases h
      rfl
    · rw [if_neg he] at h ⊢
      rw [ih h]

theorem Edges.erase_child_replace (edges : Edges V) (e : Edge) (c : Node V) :
    (edges.replace e c).erase_child e = edges.erase_child e := by
  induction edges using Edges.entries_induction with
  | nil => rfl
  | cons e1 c1 rest ih =>
    simp only [Edges.replace]
    by_cases he : e1 = e
    · simp [he, Edges.erase_child]
    · simp [he, Edges.erase_child, ih]

theorem Edges.replace_replace (edges : Edges V) (e : Edge) (c1 c2 : Node V) :
    (edges.replace e c1).replace e c2 = edges.replace e c2 := by
  induction edges using Edges.entries_induction with
  | nil => rfl
  | cons e1 c rest ih =>
    simp only [Edges.replace]
    by_cases he : e1 = e
    · simp [he, Edges.replace]
    · simp [he, Edges.replace, ih]

theorem Node.empty_of_get? (n : Node V) (e : Edge) (q : NodePtr)
    (h : (n.get? (e :: q)).isSome = true) : n.empty = false := by
  cases n with
  | mk edges endpoint x =>
    cases edges with
    | nil => simp [Node.get?, Edges.find] at h
    | cons e1 c1 rest => rfl

theorem Node.get?_isSome_of_append (n : Node V) (p r : NodePtr)
    (h : (n.get? (p ++ r)).isSome = true) : (n.get? p).isSome = true := by
  rw [Node.get?_append] at h
  cases hp : n.get? p with
  | none => rw [hp] at h; simp at h
  | some m => rfl

theorem compact_cons (t : Node V) (e : Edge) (up : List Edge) :
    compact t (e :: up) =
      match t.get? (e :: up).reverse with
      | some nd =>
        if nd.is_endpoint = false ∧ nd.empty = true then
          compact (t.modifyAt up.reverse fun parent => parent.remove_child e) up
        else t
      | none => t := by
  rw [compact]

/-- The loop started below the child under `e` does in the child what it does
when started there in the child alone, and then erases the child from its
parent when the child is left neither endpoint nor parent. -/
theorem compact_localize : ∀ (chain : List Edge) (edges : Edges V) (endpoint : Bool) (x : V)
    (e : Edge) (c : Node V), edges.find e = some c → (c.get? chain.reverse).isSome = true →
    compact (.mk edges endpoint x) (chain ++ [e]) =
      if (compact c chain).is_endpoint = false ∧ (compact c chain).empty = true then
        .mk (edges.erase_child e) endpoint x
      else .mk (edges.replace e (compact c chain)) endpoint x := by
  intro chain
  induction chain with
  | nil =>
    intro edges endpoint x e c hfind _
    have houter : (Node.mk edges endpoint x).get? [e].reverse = some c := by
      simp [Node.get?, hfind]
    rw [List.nil_append, compact_cons, houter]
    simp only [List.reverse_nil, Node.modifyAt_nil]
    have hc : compact c [] = c := rfl
    rw [hc]
    by_cases hdead : c.is_endpoint = false ∧ c.empty = true
    · rw [if_pos hdead, if_pos hdead]
      rfl
    · rw [if_neg hdead, if_neg hdead, Edges.replace_self edges e c hfind]
  | cons e1 up ih =>
    intro edges endpoint x e c hfind hvalid
    cases hn1 : c.get? (e1 :: up).reverse with
    | none => rw [hn1] at hvalid; simp at hvalid
    | some n1 =>
      have houter : (Node.mk edges endpoint x).get? (e1 :: (up ++ [e])).reverse = some n1 := by
        have : (e1 :: (up ++ [e])).reverse = e :: (e1 :: up).reverse := by simp
        rw [this]
        simp only [Node.get?, hfind]
        exact hn1
      have hinner : compact c (e1 :: up) =
          if n1.is_endpoint = false ∧ n1.empty = true then
            compact (c.modifyAt up.reverse fun parent => parent.remove_child e1) up
          else c := by
        rw [compact_cons, hn1]
      rw [List.cons_append, compact_cons, houter, hinner]
      by_cases hdead : n1.is_endpoint = false ∧ n1.empty = true
      · simp only [if_pos hdead]
        have hrev : (up ++ [e]).reverse = e :: up.reverse := by simp
        rw [hrev]
        simp only [Node.modifyAt, hfind]
        have hup : (c.get? up.reverse).isSome = true := by
          apply Node.get?_isSome_of_append c up.reverse [e1]
          have : (e1 :: up).reverse = up.reverse ++ [e1] := by simp
          rw [← this, hn1]
          rfl
        rw [ih (edges.replace e (c.modifyAt up.reverse fun parent => parent.remove_child e1))
          endpoint x e (c.modifyAt up.reverse fun parent => parent.remove_child e1)
          (Edges.find_replace edges e _ (by simp [hfind]))
          (by
            rw [Node.get?_modifyAt]
            cases hq : c.get? up.reverse with
            | none => rw [hq] at hup; simp at hup
            | some m => rfl)]
        rw [Edges.erase_child_replace, Edges.replace_replace]
      · simp only [if_neg hdead]
        have hcne : c.empty = false := by
          have hsome : (c.get? (e1 :: up).reverse).isSome = true := by rw [hn1]; rfl
          cases hr : (e1 :: up).reverse with
          | nil => simp at hr
          | cons e2 q => rw [hr] at hsome; exact Node.empty_of_get? c e2 q hsome
        rw [if_neg (by simp [hcne]), Edges.replace_self edges e c hfind]

/-- After `remove` has cleared the flag at `p` and run its loop from there, a
property of every edge holds again, when it holds of each edge to a node that
is an endpoint or has a child as soon as it held of that edge before. -/
theorem compact_every (P : Edge → Node V → Bool)
    (h1 : ∀ e c c1, P e c = true → (c1.is_endpoint = true ∨ c1.empty = false) →
      P e c1 = true) :
    ∀ (p : NodePtr) (root : Node V), root.every P = true → (root.get? p).isSome = true →
      (compact (root.modifyAt p fun m => m.set_endpoint false) p.reverse).every P = true := by
  intro p
  induction p with
  | nil =>
    intro root h _
    cases root
    exact h
  | cons e q ih =>
    intro root h hvalid
    cases root with
    | mk edges endpoint x =>
      simp only [Node.get?] at hvalid
      cases hfind : edges.find e with
      | none => rw [hfind] at hvalid; simp at hvalid
      | some c =>
        rw [hfind] at hvalid
        simp only at hvalid
        simp only [Node.modifyAt, hfind, List.reverse_cons]
        obtain ⟨hPc, hc⟩ := Edges.every_find P edges e c h hfind
        have hrec := ih c hc hvalid
        rw [compact_localize q.reverse _ endpoint x e
          (c.modifyAt q fun m => m.set_endpoint false)
          (Edges.find_replace edges e _ (by simp [hfind]))
          (by
            rw [List.reverse_reverse, Node.get?_modifyAt]
            cases hq : c.get? q with
            | none => rw [hq] at hvalid; simp at hvalid
            | some m => rfl)]
        split
        · rw [Edges.erase_child_replace]
          exact Edges.every_erase_child P edges e h
        · next hnd =>
          rw [Edges.replace_replace]
          refine Edges.every_replace P edges e _ h (h1 e c _ hPc ?_) hrec
          by_cases hep : (compact (c.modifyAt q fun m => m.set_endpoint false)
              q.reverse).is_endpoint = true
          · exact Or.inl hep
          · right
            cases hem : (compact (c.modifyAt q fun m => m.set_endpoint false)
                q.reverse).empty with
            | false => rfl
            | true =>
              exfalso
              apply hnd
              exact ⟨by simpa using hep, hem⟩

/-! ## Invariants of the reachable tries -/

theorem sound_edge_congr (e : Edge) (c c1 : Node V) (h1 : c1.is_endpoint = c.is_endpoint)
    (h2 : c1.empty = c.empty) : sound_edge e c1 = sound_edge e c := by
  simp [sound_edge, h1, h2]

theorem sound_edge_of_alive (e : Edge) (c c1 : Node V) (h : sound_edge e c = true)
    (h1 : c1.is_endpoint = true ∨ c1.empty = false) : sound_edge e c1 = true := by
  simp only [sound_edge, Bool.and_eq_true, Bool.or_eq_true, Bool.not_eq_true'] at h ⊢
  exact ⟨h.1, h1⟩

theorem insert_sound [Inhabited V] (root : Node V) (string : Edge) (value : V) (t : Node V)
    (h : root.every sound_edge = true) (hins : insert root string value = some t) :
    t.every sound_edge = true := by
  rcases insert_cases root string value t hins with ht | ⟨hlt, ht⟩ | ht
  · rw [ht]
    apply Node.modifyAt_every sound_edge sound_edge_congr _ _ _ _ root h
    · intro n hn; cases n; exact hn
    · intro e n hn
      apply sound_edge_of_alive e n _ hn
      left; cases n; rfl
  · rw [ht]
    apply Node.modifyAt_every sound_edge sound_edge_congr _ _ _ _ root h
    · intro n hn
      cases n with
      | mk edges endpoint x =>
        simp only [Node.add_edge, Node.every] at hn ⊢
        apply Edges.every_assign sound_edge edges _ _ hn
        · have hne : string.drop (_lookup root string).i ≠ [] := by
            intro h0
            have := congrArg List.length h0
            simp at this
            omega
          simp [sound_edge, Node.is_endpoint, hne]
        · rfl
    · intro e n hn
      apply sound_edge_of_alive e n _ hn
      right
      cases n with
      | mk edges endpoint x =>
        simp [Node.add_edge, Node.empty, Node.get_edges, Edges.empty_assign]
  · rw [ht]; exact h

theorem remove_sound (root : Node V) (string : Edge) (h : root.every sound_edge = true) :
    (remove root string).2.every sound_edge = true := by
  unfold remove
  cases hf : find_node root string with
  | none => exact h
  | some p =>
    simp only
    apply compact_every sound_edge sound_edge_of_alive p root h
    unfold find_node at hf
    simp only at hf
    split at hf
    · cases hf
      exact lookup_node_valid string string.length root 0
    · cases hf

theorem run_sound [Inhabited V] (ops : List (Op V)) :
    ∀ root t : Node V, root.every sound_edge = true → run root ops = some t →
      t.every sound_edge = true := by
  induction ops with
  | nil =>
    intro root t h hr
    simp only [run, Option.some.injEq] at hr
    rw [← hr]; exact h
  | cons op ops ih =>
    intro root t h hr
    simp only [run] at hr
    cases hs : step root op with
    | none => rw [hs] at hr; cases hr
    | some root1 =>
      rw [hs] at hr
      simp only at hr
      apply ih root1 t _ hr
      cases op with
      | insert string value => exact insert_sound root string value root1 h hs
      | remove string =>
        simp only [step, Option.some.injEq] at hs
        rw [← hs]
        exact remove_sound root string h

theorem reachable_sound [Inhabited V] (root : Node V) (h : Reachable root) :
    root.every sound_edge = true := by
  obtain ⟨ops, hops⟩ := h
  exact run_sound ops new root rfl hops

/-- C11 (compaction invariant): in every trie that calls of `insert` and
`remove` make from the empty trie, every node other than the root is an
endpoint or has at least one child; and the loop of `remove` stops at the
root without removing it. -/
theorem reachable_no_dead_end [Inhabited V] (root : Node V) (h : Reachable root) :
    root.no_dead_end = true ∧ ∀ t : Node V, compact t [] = t := by
  refine ⟨?_, fun _ => rfl⟩
  apply Node.every_mono sound_edge _ _ root (reachable_sound root h)
  intro e c hc
  simp only [sound_edge, Bool.and_eq_true] at hc
  exact hc.2

theorem reachable_after_remove :
    Reachable (Node.mk (.cons [99, 97, 114] (.mk .nil true 1) .nil) false 0) :=
  ⟨[.insert [99, 97, 114] 1, .insert [99, 97, 114, 116] 2, .remove [99, 97, 114, 116]], rfl⟩

/-- After `insert("car", 1)`, `insert("cart", 2)` and `remove("cart")` the leaf
of "cart" is gone and no dead end is left. -/
theorem reachable_no_dead_end_witness :
    Reachable (Node.mk (.cons [99, 97, 114] (.mk .nil true 1) .nil) false 0) ∧
      (Node.mk (.cons [99, 97, 114] (.mk .nil true 1) .nil) false 0).no_dead_end = true :=
  ⟨reachable_after_remove, (reachable_no_dead_end _ reachable_after_remove).1⟩

/-- The range that `lookup` has matched ends at `end_` at the latest. -/
theorem lookup_j_le (s : Edge) (end_ : Nat) (hend : end_ ≤ s.length) (n : Node V) :
    ∀ start : Nat, start ≤ end_ → (lookup n s start end_).j ≤ end_ := by
  induction n using Node.first_child_induction with
  | leaf endpoint x =>
    intro start hse
    rw [lookup_leaf]
    split
    · exact Nat.le_refl _
    · exact hse
  | step e c rest endpoint x ih =>
    intro start hse
    rw [lookup_cons]
    by_cases h1 : start = end_
    · rw [if_pos h1]
    rw [if_neg h1]
    obtain ⟨hlen, _⟩ := longest_common_prefix_match e s start end_ hse hend
    by_cases h2 : longest_common_prefix e s start end_ < e.length
    · rw [if_pos h2]; exact hlen
    rw [if_neg h2]
    have hfull : longest_common_prefix e s start end_ = e.length :=
      Nat.le_antisymm (longest_common_prefix_le e s start end_) (Nat.le_of_not_lt h2)
    rw [hfull] at hlen
    exact ih (start + e.length) hlen

/-- C18 (labels are never empty): in every trie that calls of `insert` and
`remove` make from the empty trie, every edge label is a non-empty string;
and each label that a branch of `insert` makes is non-empty there: `key[i, n)`
when `i == j < n`, and `edge[0, d)`, `edge[d, len(edge))` and, when `j != n`,
`key[j, n)` when `i < j`. -/
theorem reachable_labels_nonempty [Inhabited V] (root : Node V) (h : Reachable root) :
    root.labels_nonempty = true ∧
      ∀ string : Edge,
        ((_lookup root string).i = (_lookup root string).j →
          (_lookup root string).j < string.length →
          slice string (_lookup root string).i (-1) ≠ []) ∧
        ((_lookup root string).i < (_lookup root string).j →
          slice (_lookup root string).edge 0
              (((_lookup root string).j - (_lookup root string).i : Nat) : Int) ≠ [] ∧
            slice (_lookup root string).edge
              ((_lookup root string).j - (_lookup root string).i) (-1) ≠ [] ∧
            ((_lookup root string).j ≠ string.length →
              slice string (_lookup root string).j (-1) ≠ [])) := by
  refine ⟨?_, ?_⟩
  · apply Node.every_mono sound_edge _ _ root (reachable_sound root h)
    intro e c hc
    simp only [sound_edge, Bool.and_eq_true] at hc
    exact hc.1
  · intro string
    have hnil : ∀ (s : Edge) (k : Nat), k < s.length → s.drop k ≠ [] := by
      intro s k hk h0
      have := congrArg List.length h0
      simp at this
      omega
    refine ⟨?_, ?_⟩
    · intro hij hj
      rw [slice_to_end]
      exact hnil _ _ (by omega)
    · intro hlt
      have hd : (_lookup root string).j - (_lookup root string).i <
          (_lookup root string).edge.length :=
        lookup_split_bound string string.length root 0 hlt
      have hj : (_lookup root string).j ≤ string.length :=
        lookup_j_le string string.length (Nat.le_refl _) root 0 (Nat.zero_le _)
      refine ⟨?_, ?_, ?_⟩
      · rw [slice_zero_nat]
        intro h0
        have := congrArg List.length h0
        rw [List.length_take, List.length_nil] at this
        omega
      · rw [slice_to_end]
        exact hnil _ _ hd
      · intro hne
        rw [slice_to_end]
        exact hnil _ _ (by omega)

theorem carTrie_reachable : Reachable carTrie :=
  ⟨[.insert [99, 97, 114] 1, .insert [99, 97, 114, 116] 2], rfl⟩

/-- After `insert("car", 1)` and `insert("cart", 2)` the labels are "car" and
"t". -/
theorem reachable_labels_nonempty_witness :
    Reachable carTrie ∧ carTrie.labels_nonempty = true :=
  ⟨carTrie_reachable, (reachable_labels_nonempty carTrie carTrie_reachable).1⟩

/-! ## Siblings -/

/-- C12 (sibling uniqueness): the calls `insert("bb", 1)`, `insert("cc", 2)`,
`insert("cd", 3)` on the empty trie leave the root with the edges "bb", "cc"
and "cd".  `lookup` looks at "bb" alone, so "cd" is appended next to "cc"
instead of splitting it: two siblings start with the same byte, and the key
"cx" has a non-empty common prefix with both. -/
theorem siblings_share_first_byte :
    run (new : Node Nat) [.insert [98, 98] 1, .insert [99, 99] 2, .insert [99, 100] 3] =
        some (.mk (.cons [98, 98] (.mk .nil true 1) (.cons [99, 99] (.mk .nil true 2)
          (.cons [99, 100] (.mk .nil true 3) .nil))) false 0) ∧
      (Node.mk (.cons [98, 98] (.mk .nil true 1) (.cons [99, 99] (.mk .nil true 2)
          (.cons [99, 100] (.mk .nil true 3) .nil))) false 0).siblings_unique = false ∧
      longest_common_prefix [99, 99] [99, 120] 0 2 = 1 ∧
      longest_common_prefix [99, 100] [99, 120] 0 2 = 1 :=
  ⟨rfl, by decide, by decide, by decide⟩

/-- C13 (no overwrite): after `insert("cc", 1)`, `insert("ccd", 2)` and
`insert("bb", 3)` the root has the edges "bb" and "cc", and "ccd" is stored
below "cc".  For `insert("cc", 7)` `lookup` stops at "bb" with `i == j == 0`,
so `insert` calls `add_edge("cc", leaf)` on the root, which has the child "cc"
already: the child is replaced by the leaf and "ccd" is lost with it. -/
theorem insert_overwrites_edge :
    run (new : Node Nat) [.insert [99, 99] 1, .insert [99, 99, 100] 2, .insert [98, 98] 3] =
        some (.mk (.cons [98, 98] (.mk .nil true 3)
          (.cons [99, 99] (.mk (.cons [100] (.mk .nil true 2) .nil) true 1) .nil)) false 0) ∧
      _lookup (Node.mk (.cons [98, 98] (.mk .nil true 3)
          (.cons [99, 99] (.mk (.cons [100] (.mk .nil true 2) .nil) true 1) .nil)) false 0)
        [99, 99] = ⟨[], [98, 98], 0, 0⟩ ∧
      ((Node.mk (.cons [98, 98] (.mk .nil true 3)
          (.cons [99, 99] (.mk (.cons [100] (.mk .nil true 2) .nil) true 1) .nil))
          false 0).get_child (slice [99, 99] 0 (-1))).isSome = true ∧
      insert (Node.mk (.cons [98, 98] (.mk .nil true 3)
          (.cons [99, 99] (.mk (.cons [100] (.mk .nil true 2) .nil) true 1) .nil)) false 0)
        [99, 99] 7 =
        some (.mk (.cons [98, 98] (.mk .nil true 3) (.cons [99, 99] (.mk .nil true 7) .nil))
          false 0) ∧
      contains (remove (Node.mk (.cons [98, 98] (.mk .nil true 3)
          (.cons [99, 99] (.mk (.cons [100] (.mk .nil true 2) .nil) true 1) .nil)) false 0)
        [98, 98]).2 [99, 99, 100] = true ∧
      contains (remove (Node.mk (.cons [98, 98] (.mk .nil true 3)
          (.cons [99, 99] (.mk .nil true 7) .nil)) false 0) [98, 98]).2 [99, 99, 100] =
        false :=
  ⟨rfl, by decide, by decide, rfl, by decide, by decide⟩

/-- C15 (scan of all siblings): at the root with the edges "bb" and "cc", the
key "cc" shares two bytes with the label "cc", but `lookup` returns from the
first round of its loop, at "bb", with `(root, "bb", 0, 0)`: it stops with
`i == j < end` although a child label shares a non-empty prefix with the
key. -/
theorem lookup_stops_at_first_sibling :
    longest_common_prefix [99, 99] [99, 99] 0 2 = 2 ∧
      lookup (Node.mk (.cons [98, 98] (.mk .nil true 1)
          (.cons [99, 99] (.mk .nil true 2) .nil)) false 0) [99, 99] 0 2 =
        ⟨[], [98, 98], 0, 0⟩ :=
  ⟨by decide, by decide⟩

/-! ## The order of the map -/

theorem strLess_total : ∀ a b : Edge, a ≠ b → strLess a b = false → strLess b a = true := by
  intro a
  induction a with
  | nil =>
    intro b hne h
    cases b with
    | nil => exact absurd rfl hne
    | cons y b => simp [strLess] at h
  | cons x a ih =>
    intro b hne h
    cases b with
    | nil => rfl
    | cons y b =>
      simp only [strLess] at h ⊢
      by_cases h1 : x < y
      · simp [h1] at h
      · by_cases h2 : y < x
        · simp [h2]
        · simp only [h1, h2, if_false] at h ⊢
          have hxy : x = y := by omega
          subst hxy
          exact ih b (fun hab => hne (by rw [hab])) h

theorem strLess_trans : ∀ a b c : Edge, strLess a b = true → strLess b c = true →
    strLess a c = true := by
  intro a
  induction a with
  | nil =>
    intro b c h1 h2
    cases b with
    | nil => simp [strLess] at h1
    | cons y b =>
      cases c with
      | nil => simp [strLess] at h2
      | cons z c => rfl
  | cons x a ih =>
    intro b c h1 h2
    cases b with
    | nil => simp [strLess] at h1
    | cons y b =>
      cases c with
      | nil => simp [strLess] at h2
      | cons z c =>
        simp only [strLess] at h1 h2 ⊢
        by_cases hxy : x < y
        · by_cases hyz : y < z
          · have : x < z := by omega
            simp [this]
          · by_cases hzy : z < y
            · simp [hyz, hzy] at h2
            · have : x < z := by omega
              simp [this]
        · by_cases hyx : y < x
          · simp [hxy, hyx] at h1
          · simp only [hxy, hyx, if_false] at h1
            have hEq : x = y := by omega
            subst hEq
            by_cases hyz : x < z
            · simp [hyz]
            · by_cases hzy : z < x
              · simp [hyz, hzy] at h2
              · simp only [hyz, hzy, if_false] at h2 ⊢
                exact ih b c h1 h2

/-- The label `e0` comes before the first label of the map, if there is one. -/
theorem Edges.ordered_cons (e : Edge) (c : Node V) (rest : Edges V) :
    Edges.ordered (.cons e c rest) = true ↔
      c.ordered = true ∧ rest.ordered = true ∧
        ∀ e1 c1 rest1, rest = .cons e1 c1 rest1 → strLess e e1 = true := by
  cases rest with
  | nil => simp [Edges.ordered]
  | cons e1 c1 rest1 =>
    simp only [Edges.ordered, Bool.and_eq_true]
    constructor
    · rintro ⟨⟨h1, h2⟩, h3⟩
      refine ⟨h1, h2, ?_⟩
      intro e2 c2 rest2 heq
      cases heq
      exact h3
    · rintro ⟨h1, h2, h3⟩
      exact ⟨⟨h1, h2⟩, h3 e1 c1 rest1 rfl⟩

theorem Edges.ordered_assign (e : Edge) (c : Node V) (hc : c.ordered = true)
    (edges : Edges V) :
    edges.ordered = true →
      (edges.assign e c).ordered = true ∧
        ∀ e0, strLess e0 e = true →
          (∀ e1 c1 rest1, edges = .cons e1 c1 rest1 → strLess e0 e1 = true) →
          ∀ e1 c1 rest1, edges.assign e c = .cons e1 c1 rest1 → strLess e0 e1 = true := by
  induction edges using Edges.entries_induction with
  | nil =>
    intro _
    refine ⟨by simp [Edges.assign, Edges.ordered, hc], ?_⟩
    intro e0 h0 _ e1 c1 rest1 heq
    simp only [Edges.assign] at heq
    cases heq
    exact h0
  | cons e2 c2 rest ih =>
    intro h
    obtain ⟨h1, h2, h3⟩ := (Edges.ordered_cons e2 c2 rest).1 h
    obtain ⟨ih1, ih2⟩ := ih h2
    simp only [Edges.assign]
    by_cases he : e2 = e
    · rw [if_pos he]
      refine ⟨(Edges.ordered_cons e2 c rest).2 ⟨hc, h2, h3⟩, ?_⟩
      intro e0 _ hb e1 c1 rest1 heq
      cases heq
      exact hb _ _ _ rfl
    · rw [if_neg he]
      cases hlt : strLess e e2 with
      | true =>
        simp only [if_true]
        refine ⟨(Edges.ordered_cons e c _).2 ⟨hc, h, ?_⟩, ?_⟩
        · intro e1 c1 rest1 heq
          cases heq
          exact hlt
        · intro e0 h0 _ e1 c1 rest1 heq
          cases heq
          exact h0
      | false =>
        simp only [Bool.false_eq_true, if_false]
        have hgt : strLess e2 e = true := strLess_total e e2 (fun h0 => he h0.symm) hlt
        refine ⟨(Edges.ordered_cons e2 c2 _).2 ⟨h1, ih1, ih2 e2 hgt h3⟩, ?_⟩
        intro e0 _ hb e1 c1 rest1 heq
        cases heq
        exact hb _ _ _ rfl

theorem Edges.ordered_erase_child (e : Edge) (edges : Edges V) :
    edges.ordered = true →
      (edges.erase_child e).ordered = true ∧
        ∀ e0, (∀ e1 c1 rest1, edges = .cons e1 c1 rest1 → strLess e0 e1 = true) →
          ∀ e1 c1 rest1, edges.erase_child e = .cons e1 c1 rest1 → strLess e0 e1 = true := by
  induction edges using Edges.entries_induction with
  | nil =>
    intro _
    refine ⟨rfl, ?_⟩
    intro e0 _ e1 c1 rest1 heq
    simp [Edges.erase_child] at heq
  | cons e2 c2 rest ih =>
    intro h
    obtain ⟨h1, h2, h3⟩ := (Edges.ordered_cons e2 c2 rest).1 h
    obtain ⟨ih1, ih2⟩ := ih h2
    simp only [Edges.erase_child]
    by_cases he : e2 = e
    · rw [if_pos he]
      refine ⟨h2, ?_⟩
      intro e0 hb e1 c1 rest1 heq
      exact strLess_trans e0 e2 e1 (hb e2 c2 rest rfl) (h3 e1 c1 rest1 heq)
    · rw [if_neg he]
      refine ⟨(Edges.ordered_cons e2 c2 _).2 ⟨h1, ih1, ih2 e2 h3⟩, ?_⟩
      intro e0 hb e1 c1 rest1 heq
      cases heq
      exact hb _ _ _ rfl

theorem Edges.ordered_replace (e : Edge) (c : Node V) (hc : c.ordered = true)
    (edges : Edges V) :
    edges.ordered = true →
      (edges.replace e c).ordered = true ∧
        ∀ e0, (∀ e1 c1 rest1, edges = .cons e1 c1 rest1 → strLess e0 e1 = true) →
          ∀ e1 c1 rest1, edges.replace e c = .cons e1 c1 rest1 → strLess e0 e1 = true := by
  induction edges using Edges.entries_induction with
  | nil =>
    intro _
    refine ⟨rfl, ?_⟩
    intro e0 _ e1 c1 rest1 heq
    simp [Edges.replace] at heq
  | cons e2 c2 rest ih =>
    intro h
    obtain ⟨h1, h2, h3⟩ := (Edges.ordered_cons e2 c2 rest).1 h
    obtain ⟨ih1, ih2⟩ := ih h2
    simp only [Edges.replace]
    by_cases he : e2 = e
    · rw [if_pos he]
      refine ⟨(Edges.ordered_cons e2 c rest).2 ⟨hc, h2, h3⟩, ?_⟩
      intro e0 hb e1 c1 rest1 heq
      cases heq
      exact hb _ _ _ rfl
    · rw [if_neg he]
      refine ⟨(Edges.ordered_cons e2 c2 _).2 ⟨h1, ih1, ih2 e2 h3⟩, ?_⟩
      intro e0 hb e1 c1 rest1 heq
      cases heq
      exact hb _ _ _ rfl

theorem Edges.ordered_find (edges : Edges V) (e : Edge) (c : Node V)
    (h : edges.ordered = true) (hf : edges.find e = some c) : c.ordered = true := by
  induction edges using Edges.entries_induction with
  | nil => simp [Edges.find] at hf
  | cons e1 c1 rest ih =>
    obtain ⟨h1, h2, _⟩ := (Edges.ordered_cons e1 c1 rest).1 h
    simp only [Edges.find] at hf
    by_cases he : e1 = e
    · rw [if_pos he] at hf
      cases hf
      exact h1
    · rw [if_neg he] at hf
      exact ih h2 hf

theorem Node.modifyAt_ordered (f : Node V → Node V)
    (hf : ∀ n, n.ordered = true → (f n).ordered = true) (p : NodePtr) :
    ∀ n : Node V, n.ordered = true → (n.modifyAt p f).ordered = true := by
  induction p with
  | nil => intro n h; rw [Node.modifyAt_nil]; exact hf n h
  | cons e p ih =>
    intro n h
    cases n with
    | mk edges endpoint x =>
      simp only [Node.modifyAt]
      cases hfind : edges.find e with
      | none => exact h
      | some c =>
        simp only [Node.ordered] at h ⊢
        exact (Edges.ordered_replace e _ (ih c (Edges.ordered_find edges e c h hfind))
          edges h).1

theorem compact_ordered : ∀ (chain : List Edge) (t : Node V), t.ordered = true →
    (compact t chain).ordered = true := by
  intro chain
  induction chain with
  | nil => intro t h; exact h
  | cons e up ih =>
    intro t h
    rw [compact_cons]
    split
    · split
      · apply ih
        apply Node.modifyAt_ordered _ _ _ t h
        intro n hn
        cases n with
        | mk edges endpoint x =>
          simp only [Node.remove_child, Node.ordered] at hn ⊢
          exact (Edges.ordered_erase_child e edges hn).1
      · exact h
    · exact h

theorem insert_ordered [Inhabited V] (root : Node V) (string : Edge) (value : V) (t : Node V)
    (h : root.ordered = true) (hins : insert root string value = some t) :
    t.ordered = true := by
  rcases insert_cases root string value t hins with ht | ⟨_, ht⟩ | ht
  · rw [ht]
    apply Node.modifyAt_ordered _ _ _ root h
    intro n hn; cases n; exact hn
  · rw [ht]
    apply Node.modifyAt_ordered _ _ _ root h
    intro n hn
    cases n with
    | mk edges endpoint x =>
      simp only [Node.add_edge, Node.ordered] at hn ⊢
      exact (Edges.ordered_assign _ (Node.mk .nil true value) rfl edges hn).1
  · rw [ht]; exact h

theorem remove_ordered (root : Node V) (string : Edge) (h : root.ordered = true) :
    (remove root string).2.ordered = true := by
  unfold remove
  cases find_node root string with
  | none => exact h
  | some p =>
    simp only
    apply compact_ordered
    apply Node.modifyAt_ordered _ _ _ root h
    intro n hn; cases n; exact hn

/-- Every trie that calls of `insert` and `remove` make from the empty trie
keeps its maps in order, so the first entry of a map is the one with the
smallest label. -/
theorem reachable_ordered [Inhabited V] (root : Node V) (h : Reachable root) :
    root.ordered = true := by
  obtain ⟨ops, hops⟩ := h
  have key : ∀ (ops : List (Op V)) (r t : Node V), r.ordered = true → run r ops = some t →
      t.ordered = true := by
    intro ops
    induction ops with
    | nil =>
      intro r t hr hrun
      simp only [run, Option.some.injEq] at hrun
      rw [← hrun]; exact hr
    | cons op ops ih =>
      intro r t hr hrun
      simp only [run] at hrun
      cases hs : step r op with
      | none => rw [hs] at hrun; cases hrun
      | some r1 =>
        rw [hs] at hrun
        simp only at hrun
        apply ih r1 t _ hrun
        cases op with
        | insert string value => exact insert_ordered r string value r1 hr hs
        | remove string =>
          simp only [step, Option.some.injEq] at hs
          rw [← hs]
          exact remove_ordered r string hr
  exact key ops new root rfl hops

end CompressedTrie
